import Mathlib

/-!
A shallow embedding of the Solidity source-dependency flattener of
`scripts/subgraphHelpers.ts` (the flatten / batchFlatten pipeline):
the per-file import scanner (`getFileImports`), the inheritance scanner
(`findInheritance`), the recursive dependency resolver
(`resolveFileImports`), the round-based leveler (`makeDependencyList`
with `removeDependency`) and the artifact assembly (`makeFlatFile`,
`makeJsonFile`, the manifest written by `flattenFile`).

Modelling conventions:
* The file system collaborator (`fs.realpathSync`, `fs.readFileSync`) is a
  `FileStore` value: a canonicalization table and a path → raw-text map.
  `realpathSync` failure (missing file) becomes `FlattenError.resolutionError`.
* JavaScript string primitives (`indexOf`, `lastIndexOf`, `substring` with
  clamp-and-swap, `replaceAll`, `split`, out-of-bounds array reads yielding
  the string "undefined") are modelled exactly, over `List Char`.
* The unbounded `while` loops of the source are modelled with explicit
  fuel; running out of fuel is a distinguished outcome
  (`FlattenError.outOfFuel` / `none`) that the top-level entry points are
  given enough fuel to avoid, mirroring the loops' actual behaviour.
* Thrown exceptions become `Except.error`; the `throw false` of
  `makeDependencyList` carries the per-node report that the source logs
  (file name, unmet import requirements, inheritance requirements).
-/

namespace SolidityFlatten

/-- '\r' -/
def cCR : Char := Char.ofNat 13
/-- '\n' -/
def cLF : Char := Char.ofNat 10
/-- double quote -/
def cQuote : Char := Char.ofNat 34
/-- single quote -/
def cApos : Char := Char.ofNat 39
/-- backslash -/
def cBackslash : Char := Char.ofNat 92
/-- forward slash -/
def cSlash : Char := Char.ofNat 47
/-- semicolon -/
def cSemi : Char := Char.ofNat 59
/-- comma -/
def cComma : Char := Char.ofNat 44
/-- opening curly brace -/
def cBraceOpen : Char := Char.ofNat 123
/-- at sign -/
def cAt : Char := Char.ofNat 64
/-- dot -/
def cDot : Char := Char.ofNat 46
/-- space -/
def cSpace : Char := Char.ofNat 32
/-- tab -/
def cTab : Char := Char.ofNat 9

/-- The line separator used by the flattener (`const lb = '\r\n'`). -/
def lb : String := "\r\n"

/-- `replaceAll('\r\n', '\n')` followed by `replaceAll('\r', '\n')`. -/
def normNL : List Char → List Char
  | [] => []
  | c :: rest =>
    if c = cCR then
      match rest with
      | [] => [cLF]
      | c2 :: r2 => if c2 = cLF then cLF :: normNL r2 else cLF :: normNL (c2 :: r2)
    else c :: normNL rest

/-- JavaScript `String.prototype.split` with a single-character separator. -/
def splitOnCharAux (sep : Char) : List Char → List Char → List (List Char)
  | [], cur => [cur.reverse]
  | c :: rest, cur =>
    if c = sep then cur.reverse :: splitOnCharAux sep rest []
    else splitOnCharAux sep rest (c :: cur)

/-- Split a character list on a separator character. -/
def splitOnChar (sep : Char) (cs : List Char) : List (List Char) := splitOnCharAux sep cs []

/-- `s.replaceAll('\r\n','\n').replaceAll('\r','\n').split('\n')`. -/
def splitLines (raw : String) : List String :=
  (splitOnChar cLF (normNL raw.toList)).map List.asString

/-- Clamp an integer index into `[0, len]` as JavaScript string methods do. -/
def clampIdx (len : Nat) (i : Int) : Nat := if i < 0 then 0 else min i.toNat len

/-- JavaScript `String.prototype.substring` (clamps both indices and swaps
them when start exceeds end); `none` as second index means "to the end". -/
def jsSubstring (s : String) (a : Int) (b : Option Int) : String :=
  let cs := s.toList
  let len := cs.length
  let x := clampIdx len a
  let y := match b with
    | none => len
    | some bb => clampIdx len bb
  ((cs.take (max x y)).drop (min x y)).asString

/-- JavaScript `String.prototype.indexOf(sub, start)`: the least index at or
after `start` where `sub` occurs, or `-1`. -/
def jsIndexOfFrom (s sub : String) (start : Int) : Int :=
  let cs := s.toList
  let pat := sub.toList
  let st := clampIdx cs.length start
  match (List.range (cs.length + 1)).find?
      (fun i => Nat.ble st i && pat.isPrefixOf (cs.drop i)) with
  | some i => (i : Int)
  | none => -1

/-- JavaScript `String.prototype.indexOf(sub)`. -/
def jsIndexOf (s sub : String) : Int := jsIndexOfFrom s sub 0

/-- JavaScript `String.prototype.includes(sub)`. -/
def jsIncludes (s sub : String) : Prop := jsIndexOf s sub ≠ -1

instance (s sub : String) : Decidable (jsIncludes s sub) := by
  unfold jsIncludes; infer_instance

/-- JavaScript `String.prototype.lastIndexOf(sub)`. -/
def jsLastIndexOf (s sub : String) : Int :=
  let cs := s.toList
  let pat := sub.toList
  match ((List.range (cs.length + 1)).reverse).find?
      (fun i => pat.isPrefixOf (cs.drop i)) with
  | some i => (i : Int)
  | none => -1

/-- `replaceAll('\\', '/')`. -/
def slashify (s : String) : String :=
  (s.toList.map (fun c => if c = cBackslash then cSlash else c)).asString

/-- `replaceAll('\\', '//')` (used on the scanned file's own path). -/
def slashifyDouble (s : String) : String :=
  ((s.toList.map (fun c => if c = cBackslash then [cSlash, cSlash] else [c])).flatten).asString

/-- `replaceAll("'", '"')` (normalizing quote style in import statements). -/
def replaceAposWithQuote (s : String) : String :=
  (s.toList.map (fun c => if c = cApos then cQuote else c)).asString

/--
`getFileName`:
`_path.replaceAll('\\','/').substring(_path.lastIndexOf('/') === -1 ? 0 : _path.lastIndexOf('/') + 1)`.
-/
def getFileName (p : String) : String :=
  let li := jsLastIndexOf p "/"
  jsSubstring (slashify p) (if li = -1 then 0 else li + 1) none

/-- The directory prefix computed at the top of `getFileImports`:
`fPath = _file.replaceAll('\\','//')`;
`path = fPath.indexOf('/') === -1 ? '' : fPath.substring(0, fPath.lastIndexOf('/'))`. -/
def dirOf (file : String) : String :=
  let fPath := slashifyDouble file
  if jsIndexOf fPath "/" = -1 then "" else jsSubstring fPath 0 (some (jsLastIndexOf fPath "/"))

/-- Scanner output for one file (`FileImport` in the source). -/
structure FileImport where
  content : String
  meta : String
  imports : List String
  inherits : List String
deriving DecidableEq

/-- `ResolvedImportInfo` of the source: the data returned for the root. -/
structure ResolvedImportInfo where
  path : String
  file : String
  content : String
  meta : String
  requires : List String
  inherits : List String
deriving DecidableEq

/-- `ImportInfo` of the source: a registry node. `content`/`meta` start as
`null` (here `none`) and are filled in after the child is resolved. -/
structure ImportInfo where
  path : String
  file : String
  content : Option String
  meta : Option String
  requires : List String
  inherits : List String
  level : Nat
deriving DecidableEq

/-- Errors of the pipeline. `nonTermination` marks the spot where the
source's import-line-gathering `while` loop runs forever; `outOfFuel`
marks exhausted modelling fuel (unreachable from entry points given
sufficient fuel). -/
inductive FlattenError where
  | resolutionError (path : String)
  | readError (path : String)
  | nonTermination (line : String)
  | outOfFuel
  | cyclic (report : List (String × List String × List String))
deriving DecidableEq

/-- The file-system collaborator: `realpathSync` as a finite table from
spelled paths to canonical paths, and `readFileSync` as a finite table
from canonical paths to raw file text. -/
structure FileStore where
  realTable : List (String × String)
  files : List (String × String)

/-- The part of `ResolveConfig` the scanner consumes. -/
structure ResolveConfig where
  nodeModulesPath : String

/-- `fs.realpathSync(p)`: canonicalize or throw. -/
def FileStore.realpath (fs : FileStore) (p : String) : Except FlattenError String :=
  match fs.realTable.lookup p with
  | some r => .ok r
  | none => .error (.resolutionError p)

/-- `fs.readFileSync(p)`: read or throw. -/
def FileStore.read (fs : FileStore) (p : String) : Except FlattenError String :=
  match fs.files.lookup p with
  | some r => .ok r
  | none => .error (.readError p)

/--
The import-line-gathering loop of `getFileImports`:
`while (!importLine.includes(';')) { n += 1; importLine += lines[n]; }`.
Reading past the end of the line array yields JavaScript `undefined`,
which string-appends as `"undefined"`. `none` models non-termination
(the fuel ran out; the theorems below show the loop indeed never stops
when no later line carries a semicolon).
-/
def gatherStmt : Nat → String → List String → Option (String × List String)
  | fuel, acc, ls =>
    if (acc.toList.contains cSemi) then some (acc, ls)
    else
      match fuel with
      | 0 => none
      | fuel + 1 =>
        match ls with
        | [] => gatherStmt fuel (acc ++ "undefined") []
        | x :: xs => gatherStmt fuel (acc ++ x) xs

/-- Extract the import target from a gathered import statement:
normalize quotes, take the text between the first two quotes, and
`replaceAll('\\','/')` it. -/
def extractImportTarget (importLine : String) : String :=
  let il := replaceAposWithQuote importLine
  let iStart := jsIndexOf il ([cQuote].asString)
  let iEnd := jsIndexOfFrom il ([cQuote].asString) (iStart + 1)
  slashify (jsSubstring il (iStart + 1) (some iEnd))

/-- Resolve one extracted import specifier exactly as `getFileImports` does:
`@`-prefixed against the node-modules root, `./`-prefixed against the file's
own directory with the marker stripped, anything else against
the same directory unstripped; each result is canonicalized (throwing
`ResolutionError` when the file does not exist) and slash-normalized. -/
def resolveImportPath (cfg : ResolveConfig) (fs : FileStore) (dir : String) (iPath : String) :
    Except FlattenError String :=
  match iPath.toList with
  | [] =>
    match fs.realpath (dir ++ "/" ++ iPath) with
    | .ok r => .ok (slashify r)
    | .error e => .error e
  | c0 :: rest =>
    if c0 = cAt then
      match fs.realpath (cfg.nodeModulesPath ++ "/" ++ iPath) with
      | .ok r => .ok (slashify r)
      | .error e => .error e
    else
      match rest with
      | c1 :: _ =>
        if c0 = cDot ∧ c1 = cSlash then
          match fs.realpath (dir ++ "/" ++ (iPath.toList.drop 2).asString) with
          | .ok r => .ok (slashify r)
          | .error e => .error e
        else
          match fs.realpath (dir ++ "/" ++ iPath) with
          | .ok r => .ok (slashify r)
          | .error e => .error e
      | [] =>
        match fs.realpath (dir ++ "/" ++ iPath) with
        | .ok r => .ok (slashify r)
        | .error e => .error e

/-- Whether `getFileImports` treats a line as starting an import statement
(`l.indexOf('import') === 0`). -/
def isImportLine (l : String) : Prop := jsIndexOf l "import" = 0

instance (l : String) : Decidable (isImportLine l) := by
  unfold isImportLine; infer_instance

/-- Whether a non-import line is routed to the header (`meta`):
it contains the license marker or the version-pragma marker. -/
def isMetaLine (l : String) : Prop := jsIncludes l "SPDX-License" ∨ jsIncludes l "pragma solidity"

instance (l : String) : Decidable (isMetaLine l) := by
  unfold isMetaLine; infer_instance

/--
The line-classification loop of `getFileImports`: import-starting lines are
gathered up to their semicolon and resolved; other lines go to `meta` when
they carry a license/pragma marker and to `content` otherwise. The fuel is
one unit per loop iteration; each iteration consumes at least one line, so
`lines.length` fuel always suffices.
-/
def scanLoop (cfg : ResolveConfig) (fs : FileStore) (dir : String) :
    Nat → List String → Except FlattenError (List String × List String × List String)
  | _, [] => .ok ([], [], [])
  | 0, _ :: _ => .error .outOfFuel
  | fuel + 1, l :: rest =>
    if isImportLine l then
      match gatherStmt (rest.length + 1) l rest with
      | none => .error (.nonTermination l)
      | some (stmt, rest') =>
        match resolveImportPath cfg fs dir (extractImportTarget stmt) with
        | .error e => .error e
        | .ok rPath =>
          match scanLoop cfg fs dir fuel rest' with
          | .error e => .error e
          | .ok (imps, cont, meta) => .ok (rPath :: imps, cont, meta)
    else
      match scanLoop cfg fs dir fuel rest with
      | .error e => .error e
      | .ok (imps, cont, meta) =>
        if jsIncludes l "SPDX-License" then .ok (imps, cont, l :: meta)
        else if jsIncludes l "pragma solidity" then .ok (imps, cont, l :: meta)
        else .ok (imps, l :: cont, meta)

/-- Leading/trailing blank-line trimming of the body content. -/
def trimBlanks (ls : List String) : List String :=
  ((ls.dropWhile (fun l => l = "")).reverse.dropWhile (fun l => l = "")).reverse

/-- The `uniqueImports` de-duplication loop: keep each import's first
occurrence, preserving order. -/
def uniqueKeep (ls : List String) : List String :=
  ls.foldl (fun acc i => if i ∈ acc then acc else acc ++ [i]) []

/-- State of the `findInheritance` scan (the variables declared before its
line loop). -/
structure InhState where
  firstFound : Bool
  inheritStr : String
  iStart : Int
  bStart : Int
  endFound : Bool
deriving DecidableEq

/-- Outcome of one `findInheritance` loop iteration: continue, break, or
return a final list. -/
inductive InhStep where
  | cont (s : InhState)
  | stop (s : InhState)
  | ret (r : List String)

/-- One iteration of the `findInheritance` line loop, transcribed from the
source including its index quirks (`indexOf('contract ') + 8`, persistent
`iStart`/`bStart`, the `bStart > iStart` early return). -/
def inhLine (s : InhState) (l : String) : InhStep :=
  if s.firstFound = false ∧ jsIndexOf l "library " = 0 then .stop s
  else
    let fc : Bool × Int :=
      if s.firstFound = false ∧ jsIndexOf l "import " ≠ 0 ∧ jsIndexOf l "contract" ≠ -1 then
        (true, jsIndexOf l "contract " + 8)
      else (s.firstFound, 0)
    if fc.1 = false then .cont s
    else
      let iStart := jsIndexOfFrom l " is" fc.2
      let bStart := jsIndexOfFrom l ([cBraceOpen].asString) fc.2
      if iStart = -1 ∧ bStart = -1 then
        .cont { s with
                firstFound := fc.1, iStart := iStart, bStart := bStart,
                inheritStr := s.inheritStr ++ jsSubstring l fc.2 none }
      else
        if s.endFound = false ∧ bStart > iStart then .ret []
        else
          let s' : InhState :=
            { firstFound := fc.1, endFound := true, iStart := iStart, bStart := bStart,
              inheritStr := s.inheritStr ++
                jsSubstring l (if iStart = -1 then 0 else iStart + 3)
                  (if bStart = -1 then none else some bStart) }
          .stop s'

/-- The `findInheritance` line loop. -/
def findInheritanceLines : InhState → List String → InhState ⊕ List String
  | s, [] => Sum.inl s
  | s, l :: rest =>
    match inhLine s l with
    | .cont s' => findInheritanceLines s' rest
    | .stop s' => Sum.inl s'
    | .ret r => Sum.inr r

/-- JavaScript `split(',')`. -/
def splitComma (s : String) : List String := (splitOnChar cComma s.toList).map List.asString

/-- The post-loop extraction of `findInheritance`: substring of the
accumulated text between the (stale) `iStart + 3` and `bStart` indices,
whitespace stripped, split on commas; empty means no base list. -/
def inhFinish (s : InhState) : List String :=
  let inheritsList :=
    ((jsSubstring s.inheritStr (s.iStart + 3) (some s.bStart)).toList.filter
      (fun c => ¬(c = cSpace ∨ c = cTab ∨ c = cCR ∨ c = cLF))).asString
  if inheritsList = "" then [] else splitComma inheritsList

/-- `findInheritance`: base-type names of the first qualifying composite
type declaration of a file's raw text. -/
def findInheritance (raw : String) : List String :=
  match findInheritanceLines ⟨false, "", 0, 0, false⟩ (splitLines raw) with
  | Sum.inr r => r
  | Sum.inl s => inhFinish s

/-- `getFileImports`: read one file, classify its lines, canonicalize and
de-duplicate its import targets, trim the body, and scan inheritance. -/
def getFileImports (cfg : ResolveConfig) (fs : FileStore) (file : String) :
    Except FlattenError FileImport :=
  match fs.read file with
  | .error e => .error e
  | .ok raw =>
    let lines := splitLines raw
    match scanLoop cfg fs (dirOf file) lines.length lines with
    | .error e => .error e
    | .ok (imports, content, meta) =>
      .ok { content := String.intercalate lb (trimBlanks content),
            meta := String.intercalate lb meta,
            imports := uniqueKeep imports,
            inherits := findInheritance raw }

/-- Replace the first element satisfying `p` (the object `Array.find`
returns and the source then mutates). -/
def updateFirst (p : α → Bool) (f : α → α) : List α → List α
  | [] => []
  | x :: xs => if p x then f x :: xs else x :: updateFirst p f xs

/-- The "check level / resolve" loop of `resolveFileImports`: already
registered targets get their stored level raised to the maximum, fresh
targets are collected for resolution (in order). -/
def checkImportLevels (dict : List ImportInfo) (imports : List String) (level : Nat) :
    List String × List ImportInfo :=
  imports.foldl
    (fun acc i =>
      if acc.2.any (fun m => m.path == i) then
        (acc.1, updateFirst (fun m => m.path == i) (fun m => { m with level := max m.level level }) acc.2)
      else (acc.1 ++ [i], acc.2))
    ([], dict)

/-- The placeholder node pushed into the registry before a fresh import
target is resolved. -/
def mkNode (r : String) (level : Nat) : ImportInfo :=
  { path := r, file := getFileName r, content := none, meta := none,
    requires := [], inherits := [], level := level }

/-- The body of the child-resolution loop of `resolveFileImports`
(`myImports.forEach(...)`): resolve the child with `resolveFn` and copy its
content, meta, requires and inherits onto the child's registry node. A
thrown error propagates out of the loop. -/
def childStep (resolveFn : String → List ImportInfo →
    Except FlattenError (ResolvedImportInfo × List ImportInfo)) :
    Except FlattenError (List ImportInfo) → String → Except FlattenError (List ImportInfo) :=
  fun acc r =>
    match acc with
    | .error e => .error e
    | .ok dct =>
      match resolveFn r dct with
      | .error e => .error e
      | .ok (d, dct') =>
        .ok (updateFirst (fun i => i.path == r)
          (fun i => { i with
                      content := some d.content, meta := some d.meta,
                      requires := d.requires, inherits := d.inherits }) dct')

/-- Stable ascending sort by `level` (`sort((a, b) => a.level - b.level)`). -/
def sortLevelAsc (l : List ImportInfo) : List ImportInfo :=
  List.insertionSort (fun a b => a.level ≤ b.level) l

/-- Stable descending sort by `level` (`sort((a, b) => b.level - a.level)`). -/
def sortLevelDesc (l : List ImportInfo) : List ImportInfo :=
  List.insertionSort (fun a b => b.level ≤ a.level) l

/--
`resolveFileImports`: canonicalize the file, scan it, raise levels of
already-registered targets, register fresh targets (placeholder nodes, in
order, before any recursion), recursively resolve each fresh target at
`level + 1` filling its node's content/meta/requires/inherits, and finally
re-sort the registry by level. The fuel bounds recursion depth; every
recursive call spends one unit.
-/
def resolveFileImports (fs : FileStore) (cfg : ResolveConfig) :
    Nat → String → List ImportInfo → Nat →
    Except FlattenError (ResolvedImportInfo × List ImportInfo)
  | 0, _, _, _ => .error .outOfFuel
  | fuel + 1, file, dict, level =>
    match fs.realpath file with
    | .error e => .error e
    | .ok fPath0 =>
      let fPath := slashify fPath0
      match getFileImports cfg fs fPath with
      | .error e => .error e
      | .ok data =>
        let rd := checkImportLevels dict data.imports level
        let dict2 := rd.2 ++ rd.1.map (fun r => mkNode r level)
        match rd.1.foldl
            (childStep (fun r dct => resolveFileImports fs cfg fuel r dct (level + 1)))
            (.ok dict2) with
        | .error e => .error e
        | .ok dict3 =>
          .ok ({ path := fPath, file := getFileName fPath, content := data.content,
                 meta := data.meta, requires := data.imports, inherits := data.inherits },
               sortLevelAsc dict3)

/-- `removeDependency`: erase the first occurrence of a satisfied
dependency's path from every remaining node's requirement list. -/
def removeDependency (dict : List ImportInfo) (dep : String) : List ImportInfo :=
  dict.map (fun i => { i with requires := i.requires.erase dep })

/-- The per-node effect of one round's `removeDependency` calls: erase each
emitted node's path (first occurrence) from a node's requirement list. -/
def eraseReqs (nd : List ImportInfo) (i : ImportInfo) : ImportInfo :=
  { i with requires := nd.foldl (fun rq d => rq.erase d.path) i.requires }

/-- One round of the leveling loop: candidates are the nodes with no
remaining import requirements; if none, fall back to nodes whose raw
inheritance list is empty; if still none, fail with the per-node report the
source logs. Returns the emitted candidates and the registry that remains
after removal and dependency erasure. -/
def peelRound (dict : List ImportInfo) :
    Except FlattenError (List ImportInfo × List ImportInfo) :=
  let noDeps := dict.filter (fun i => i.requires.isEmpty)
  if noDeps.isEmpty then
    let noInh := dict.filter (fun i => i.inherits.isEmpty)
    if noInh.isEmpty then
      .error (.cyclic (dict.map (fun i => (i.file, i.requires, i.inherits))))
    else
      .ok (noInh, noInh.foldl (fun acc d => removeDependency acc d.path)
        (dict.filter (fun i => ¬i.inherits.isEmpty)))
  else
    .ok (noDeps, noDeps.foldl (fun acc d => removeDependency acc d.path)
      (dict.filter (fun i => ¬i.requires.isEmpty)))

/-- The `while (_importDictionary.length > 0)` loop of
`makeDependencyList`. Each successful round emits at least one node, so
`dict.length` fuel always suffices. -/
def mdlAux : Nat → List ImportInfo → List ImportInfo → Except FlattenError (List ImportInfo)
  | _, [], deps => .ok deps
  | 0, _ :: _, _ => .error .outOfFuel
  | fuel + 1, l :: dictRest, deps =>
    match peelRound (l :: dictRest) with
    | .error e => .error e
    | .ok (nd, rest) => mdlAux fuel rest (deps ++ nd)

/-- `makeDependencyList`: peel the registry into an emission order, assign
`level = totalCount - emissionPosition`, and sort ascending by level. The
first component is the emission order (with levels assigned); the second is
the sorted list the source leaves in `_importDictionary` (and also returns,
as the same mutated array). -/
def makeDependencyList (dict : List ImportInfo) :
    Except FlattenError (List ImportInfo × List ImportInfo) :=
  match mdlAux dict.length dict [] with
  | .error e => .error e
  | .ok deps0 =>
    let total := deps0.length
    let deps := deps0.enum.map (fun p => { p.2 with level := total - p.1 })
    .ok (deps, sortLevelAsc deps)

/-- `${null}` interpolates as the string "null" in JavaScript templates. -/
def optStr : Option String → String
  | none => "null"
  | some s => s

/-- `makeShortImports`: rewrite each requirement to a bare
same-directory import statement. -/
def makeShortImports (requires : List String) : String :=
  String.intercalate lb (requires.map (fun r => "import " ++ [cQuote].asString ++ getFileName r ++ [cQuote].asString))

/-- One `sources` entry of the standard-JSON artifact:
`${meta}\r\n\r\n${makeShortImports(...)}\r\n\r\n${content}`. -/
def sourceEntry (meta : Option String) (requires : List String) (content : Option String) : String :=
  optStr meta ++ lb ++ lb ++ makeShortImports requires ++ lb ++ lb ++ optStr content

/-- JavaScript object-key assignment `obj[k] = v`: replace in place when the
key exists, append otherwise. -/
def upsert (k v : String) : List (String × String) → List (String × String)
  | [] => [(k, v)]
  | (k', v') :: rest => if k' = k then (k, v) :: rest else (k', v') :: upsert k v rest

/-- The `sources` object built by `makeJsonFile`: one assignment keyed by
the root's `file` name, then one per registry node keyed by its `file`
name, in registry order. -/
def makeJsonSources (d : ResolvedImportInfo) (dict : List ImportInfo) : List (String × String) :=
  dict.foldl (fun s i => upsert i.file (sourceEntry i.meta i.requires i.content) s)
    (upsert d.file (sourceEntry (some d.meta) d.requires (some d.content)) [])

/-- One labeled content block of the flat artifact:
`//File: [${c.file}]\r\n\r\n${c.content}\r\n\r\n`. -/
def flatBlock (c : ImportInfo) : String :=
  "//File: [" ++ c.file ++ "]" ++ lb ++ lb ++ optStr c.content ++ lb ++ lb

/-- `makeFlatFile`: sort the registry highest level first (mutating it),
concatenate every node's labeled block, and append the root's meta and
body. Returns the flat text and the sorted registry (the source's mutated
`_importDictionary`). -/
def makeFlatFile (d : ResolvedImportInfo) (dict : List ImportInfo) : String × List ImportInfo :=
  let sorted := sortLevelDesc dict
  (d.meta ++ lb ++ lb ++ sorted.foldl (fun p c => p ++ flatBlock c) "" ++ d.content, sorted)

/-- The three artifacts a single root's flatten run produces, plus the
block list (the registry in flat-emission order) underlying the flat text. -/
structure Artifacts where
  info : List (String × Nat)
  flatBlocks : List ImportInfo
  flatText : String
  sources : List (String × String)
deriving DecidableEq

/-- The artifact-producing core of `flattenFile` for one root: resolve,
level, then (only on success, in source order) produce the manifest
(`<out>.info.json` content), the flat text, and the standard-JSON
`sources`. An error anywhere aborts with no artifact. -/
def flattenCore (fs : FileStore) (cfg : ResolveConfig) (fuel : Nat) (rootFile : String) :
    Except FlattenError Artifacts :=
  match resolveFileImports fs cfg fuel rootFile [] 0 with
  | .error e => .error e
  | .ok (d, dict) =>
    match makeDependencyList dict with
    | .error e => .error e
    | .ok (_, dict') =>
      let info := dict'.map (fun i => (i.path, i.level))
      let fb := makeFlatFile d dict'
      .ok { info := info, flatBlocks := fb.2, flatText := fb.1,
            sources := makeJsonSources d fb.2 }

/-- `batchFlatten`: `for (let a of _args) flattenFile(...)` with no
try/catch around the loop body — a thrown error propagates and ends the
whole batch. -/
def batchFlatten (fs : FileStore) (cfg : ResolveConfig) (fuel : Nat) :
    List String → Except FlattenError (List Artifacts)
  | [] => .ok []
  | f :: rest =>
    match flattenCore fs cfg fuel f with
    | .error e => .error e
    | .ok a =>
      match batchFlatten fs cfg fuel rest with
      | .error e => .error e
      | .ok as' => .ok (a :: as')

/-- The lines of a file that are not consumed as part of an import
statement (the statement's opening line and the continuation lines swallowed
by the gathering loop are consumed); mirrors `scanLoop`'s consumption
exactly, fuel included. -/
def nonImportLines : Nat → List String → List String
  | _, [] => []
  | 0, _ :: _ => []
  | fuel + 1, l :: rest =>
    if isImportLine l then
      match gatherStmt (rest.length + 1) l rest with
      | none => []
      | some (_, rest') => nonImportLines fuel rest'
    else l :: nonImportLines fuel rest

instance [DecidableEq ε] [DecidableEq α] : DecidableEq (Except ε α) := fun a b =>
  match a, b with
  | .ok x, .ok y => if h : x = y then .isTrue (by rw [h]) else .isFalse (by simp [h])
  | .error x, .error y => if h : x = y then .isTrue (by rw [h]) else .isFalse (by simp [h])
  | .ok _, .error _ => .isFalse (by simp)
  | .error _, .ok _ => .isFalse (by simp)

/-- Position of the first node with a given canonical path. -/
def pathIdx (l : List ImportInfo) (p : String) : Nat :=
  (l.map (fun i => i.path)).findIdx (fun q => q == p)

/-! ### Concrete fixtures used by witnesses and counterexamples -/

/-- Fixture: registry node that imports `/B` and has an empty inheritance list. -/
def cycA : ImportInfo :=
  { path := "/A", file := "A", content := some "", meta := some "",
    requires := ["/B"], inherits := [], level := 0 }

/-- Fixture: registry node that imports `/A`; its inheritance list carries the
base-type name `X`, which names no registry node. -/
def cycB : ImportInfo :=
  { path := "/B", file := "B", content := some "", meta := some "",
    requires := ["/A"], inherits := ["X"], level := 0 }

/-- Fixture: a registry node at `/a/T.sol` (file name `T.sol`). -/
def dupT1 : ImportInfo :=
  { path := "/a/T.sol", file := getFileName "/a/T.sol", content := some "one",
    meta := some "m1", requires := [], inherits := [], level := 2 }

/-- Fixture: a registry node at `/b/T.sol` — a different canonical path but
the same file name `T.sol`. -/
def dupT2 : ImportInfo :=
  { path := "/b/T.sol", file := getFileName "/b/T.sol", content := some "two",
    meta := some "m2", requires := [], inherits := [], level := 1 }

/-- Fixture: a resolved root at `/a/R.sol`. -/
def dupRoot : ResolvedImportInfo :=
  { path := "/a/R.sol", file := getFileName "/a/R.sol", content := "rc",
    meta := "rm", requires := [], inherits := [] }

/-- Fixture: node of an import cycle with a non-empty inheritance list. -/
def stuckX : ImportInfo :=
  { path := "/X", file := "X", content := some "", meta := some "",
    requires := ["/Y"], inherits := ["Y"], level := 0 }

/-- Fixture: the other node of the stuck import cycle. -/
def stuckY : ImportInfo :=
  { path := "/Y", file := "Y", content := some "", meta := some "",
    requires := ["/X"], inherits := ["X"], level := 0 }

/-- Fixture config for concrete pipeline runs. -/
def flatCfg : ResolveConfig := { nodeModulesPath := "/nm" }

/-- Fixture file store: `/x.sol` has an import that resolves to no existing
file; `/y.sol` is fine on its own. -/
def errFS : FileStore :=
  { realTable := [("/x.sol", "/x.sol"), ("/y.sol", "/y.sol")],
    files := [("/x.sol", "import \"./gone.sol\";\ncontract X \x7b\x7d\n"),
              ("/y.sol", "contract Y \x7b\x7d\n")] }

/-- Fixture: node with no import requirements. -/
def wA : ImportInfo :=
  { path := "/W1", file := "W1", content := some "", meta := some "",
    requires := [], inherits := [], level := 0 }

/-- Fixture: node importing `/W1`. -/
def wB : ImportInfo :=
  { path := "/W2", file := "W2", content := some "", meta := some "",
    requires := ["/W1"], inherits := [], level := 0 }

/-- The emission order `makeDependencyList` produces for `[wA, wB]`, with
levels assigned. -/
def wDeps : List ImportInfo :=
  [{ wA with level := 2 }, { wB with requires := [], level := 1 }]

/-- Fixture file store: a root file that imports itself. -/
def selfFS : FileStore :=
  { realTable := [("/r.sol", "/r.sol")],
    files := [("/r.sol", "pragma solidity ^0.8.0;\nimport \"./r.sol\";\ncontract R \x7b\x7d\n")] }

/-- Fixture file store: the root imports the same library through two
distinct specifiers (`./lib.sol` and `lib.sol`) that canonicalize to the
same real path. -/
def dedupFS : FileStore :=
  { realTable := [("/d/r.sol", "/d/r.sol"), ("/d/lib.sol", "/d/lib.sol")],
    files := [("/d/r.sol",
        "import \"./lib.sol\";\nimport 'lib.sol';\ncontract R \x7b\x7d\n"),
      ("/d/lib.sol", "contract L \x7b\x7d\n")] }

/-- The root info the resolver returns for `dedupFS`. -/
def dedupD : ResolvedImportInfo :=
  { path := "/d/r.sol", file := "r.sol", content := "contract R \x7b\x7d",
    meta := "", requires := ["/d/lib.sol"], inherits := [] }

/-- The single registry node the resolver creates for `dedupFS`. -/
def dedupNode : ImportInfo :=
  { path := "/d/lib.sol", file := "lib.sol", content := some "contract L \x7b\x7d",
    meta := some "", requires := [], inherits := [], level := 0 }

/-- Fixture: chain node with no imports. -/
def chainA : ImportInfo :=
  { path := "/c1", file := "c1", content := some "", meta := some "",
    requires := [], inherits := [], level := 0 }

/-- Fixture: chain node importing `/c1`. -/
def chainB : ImportInfo :=
  { path := "/c2", file := "c2", content := some "", meta := some "",
    requires := ["/c1"], inherits := [], level := 0 }

/-- Fixture: chain node importing `/c1` and `/c2`. -/
def chainC : ImportInfo :=
  { path := "/c3", file := "c3", content := some "", meta := some "",
    requires := ["/c1", "/c2"], inherits := [], level := 0 }

/-- A rank function witnessing acyclicity of the chain fixture. -/
def chainRank (p : String) : Nat := if p = "/c3" then 2 else if p = "/c2" then 1 else 0

/-- Fixture file store for header extraction: license and pragma marker
lines scattered among ordinary content lines. -/
def hdrFS : FileStore :=
  { realTable := [("/h.sol", "/h.sol")],
    files := [("/h.sol",
      "contract C \x7b\x7d\n// SPDX-License-Identifier: MIT\nmore\npragma solidity ^0.8.0;")] }

end SolidityFlatten

namespace SolidityFlatten

/-! ### Theorems -/

/--
**C2, counterexample.** Import cycle A→B→A where B's inheritance list is
`["X"]` — it excludes A, and `X` names no registry node, so B's inheritance
requirement set restricted to still-unordered nodes is empty. The claim
says the fallback peel therefore emits B before A. The code instead checks
the raw `inherits` list for emptiness (names are never removed as nodes are
ordered), so the fallback selects only A and the emission order is
`[/A, /B]`: B does not precede A.
-/
theorem C2_counterexample :
    (mdlAux 2 [cycA, cycB] []).map (List.map ImportInfo.path) = .ok ["/A", "/B"] ∧
    ¬ List.findIdx (fun q => q == "/B") ["/A", "/B"] <
      List.findIdx (fun q => q == "/A") ["/A", "/B"] := by
  decide

/--
**C2, amended.** When import-based peeling stalls, the fallback selects
exactly the still-unordered nodes whose raw `inherits` list is literally
empty (inheritance names are never removed as nodes are ordered). In
particular, for an import cycle A→B→A, the fallback emits B before A when
B's inheritance list is empty and A's is not.
-/
theorem C2_amended (A B : ImportInfo)
    (hreqA : A.requires = [B.path]) (hreqB : B.requires = [A.path])
    (hAinh : A.inherits ≠ []) (hBinh : B.inherits = []) :
    (mdlAux 2 [A, B] []).map (List.map ImportInfo.path) = .ok [B.path, A.path] := by
  have h1 : A.requires.isEmpty = false := by simp [hreqA]
  have h2 : B.requires.isEmpty = false := by simp [hreqB]
  have h3 : A.inherits.isEmpty = false := by
    cases h : A.inherits with
    | nil => exact absurd h hAinh
    | cons x xs => simp
  have h4 : B.inherits.isEmpty = true := by simp [hBinh]
  simp only [mdlAux, peelRound, removeDependency, h1, h2, h3, h4, List.filter, List.isEmpty_nil,
    List.isEmpty_cons, Bool.not_false, Bool.not_true, if_false, if_true, List.foldl,
    List.map, hreqA, List.erase_cons_head, List.isEmpty_iff]
  rfl

/-- Witness for C2's amended theorem at the concrete cycle fixture. -/
theorem C2_amended_witness :
    cycB.requires = [cycA.path] ∧ cycA.requires = [cycB.path] ∧
    cycB.inherits ≠ [] ∧ cycA.inherits = [] ∧
    (mdlAux 2 [cycB, cycA] []).map (List.map ImportInfo.path) = .ok [cycA.path, cycB.path] :=
  ⟨by decide, by decide, by decide, by decide,
    C2_amended cycB cycA (by decide) (by decide) (by decide) (by decide)⟩

theorem upsert_of_not_mem (k v : String) :
    ∀ s : List (String × String), k ∉ s.map Prod.fst → upsert k v s = s ++ [(k, v)]
  | [], _ => rfl
  | (k', v') :: t, h => by
    have hk : ¬ k' = k := fun hkk => h (by simp [hkk])
    have ht : k ∉ t.map Prod.fst := fun hm => h (by simp [hm])
    simp [upsert, hk, upsert_of_not_mem k v t ht]

theorem foldl_upsert_fresh (ent : ImportInfo → String) :
    ∀ (dict : List ImportInfo) (acc : List (String × String)),
      (dict.map (fun i => i.file)).Nodup →
      (∀ i ∈ dict, i.file ∉ acc.map Prod.fst) →
      dict.foldl (fun s i => upsert i.file (ent i) s) acc =
        acc ++ dict.map (fun i => (i.file, ent i))
  | [], acc, _, _ => by simp
  | i :: t, acc, hnd, hfresh => by
    have hif : i.file ∉ acc.map Prod.fst := hfresh i (by simp)
    have hnd' : (t.map (fun j => j.file)).Nodup := (List.nodup_cons.mp hnd).2
    have hhead : i.file ∉ t.map (fun j => j.file) := (List.nodup_cons.mp hnd).1
    have hfresh' : ∀ j ∈ t, j.file ∉ (acc ++ [(i.file, ent i)]).map Prod.fst := by
      intro j hj
      simp only [List.map_append, List.mem_append, List.map_cons, List.map_nil,
        List.mem_singleton, not_or]
      refine ⟨hfresh j (by simp [hj]), ?_⟩
      intro hje
      exact hhead (hje ▸ List.mem_map_of_mem (fun j => j.file) hj)
    calc (i :: t).foldl (fun s j => upsert j.file (ent j) s) acc
        = t.foldl (fun s j => upsert j.file (ent j) s) (acc ++ [(i.file, ent i)]) := by
          simp [List.foldl_cons, upsert_of_not_mem i.file (ent i) acc hif]
      _ = (acc ++ [(i.file, ent i)]) ++ t.map (fun j => (j.file, ent j)) :=
          foldl_upsert_fresh ent t (acc ++ [(i.file, ent i)]) hnd' hfresh'
      _ = acc ++ (i :: t).map (fun j => (j.file, ent j)) := by simp

theorem lookup_of_nodup_keys (k v : String) :
    ∀ l : List (String × String), (l.map Prod.fst).Nodup → (k, v) ∈ l →
      l.lookup k = some v
  | (k', v') :: t, hnd, hm => by
    rcases List.mem_cons.mp hm with h | h
    · obtain ⟨hk, hv⟩ := Prod.mk.injEq .. ▸ h
      simp [List.lookup, hk.symm, hv]
    · have hk : ¬ k = k' := by
        intro hkk
        have : k ∈ t.map Prod.fst := List.mem_map.mpr ⟨(k, v), h, rfl⟩
        exact (List.nodup_cons.mp hnd).1 (hkk ▸ this)
      have ih := lookup_of_nodup_keys k v t (List.nodup_cons.mp hnd).2 h
      have hbeq : (k == k') = false := beq_eq_false_iff_ne.mpr hk
      simp [List.lookup, hbeq, ih]

/--
**C3, counterexample.** Two registry nodes with distinct canonical paths
(`/a/T.sol` and `/b/T.sol`) but the same file name: the compiler-input
`sources` object of `makeJsonFile` is keyed by the node's *file name*, not
its canonical path, so the two distinct nodes collapse onto a single key
(`T.sol`, the second assignment overwriting the first) and no key equals a
canonical path.
-/
theorem C3_counterexample :
    dupT1.path ≠ dupT2.path ∧
    (makeJsonSources dupRoot [dupT1, dupT2]).map Prod.fst = ["R.sol", "T.sol"] := by
  decide

/--
**C3, amended.** The compiler-input artifact is a mapping keyed by each
node's *file name* (the path's basename), including the root; each entry is
the node's header, synthesized bare same-directory import statements, and
body. Distinct registry nodes occupy distinct keys only when their file
names differ: under that proviso the key list is exactly the root's file
name followed by each node's file name, and each key maps to its node's
entry; a file-name collision instead overwrites.
-/
theorem C3_amended (d : ResolvedImportInfo) (dict : List ImportInfo)
    (hnd : (d.file :: dict.map (fun i => i.file)).Nodup) :
    makeJsonSources d dict =
      (d.file, sourceEntry (some d.meta) d.requires (some d.content)) ::
        dict.map (fun i => (i.file, sourceEntry i.meta i.requires i.content)) ∧
    (makeJsonSources d dict).map Prod.fst = d.file :: dict.map (fun i => i.file) ∧
    (makeJsonSources d dict).lookup d.file =
      some (sourceEntry (some d.meta) d.requires (some d.content)) ∧
    ∀ i ∈ dict, (makeJsonSources d dict).lookup i.file =
      some (sourceEntry i.meta i.requires i.content) := by
  have hnd2 : (dict.map (fun i => i.file)).Nodup := (List.nodup_cons.mp hnd).2
  have hdf : d.file ∉ dict.map (fun i => i.file) := (List.nodup_cons.mp hnd).1
  have hmain : makeJsonSources d dict =
      (d.file, sourceEntry (some d.meta) d.requires (some d.content)) ::
        dict.map (fun i => (i.file, sourceEntry i.meta i.requires i.content)) := by
    unfold makeJsonSources
    rw [show upsert d.file (sourceEntry (some d.meta) d.requires (some d.content)) [] =
        [(d.file, sourceEntry (some d.meta) d.requires (some d.content))] from rfl]
    rw [foldl_upsert_fresh _ dict _ hnd2 ?_]
    · simp
    · intro i hi
      simp only [List.map_cons, List.map_nil, List.mem_singleton]
      intro hif
      exact hdf (hif ▸ List.mem_map_of_mem (fun j => j.file) hi)
  have hkeys : (makeJsonSources d dict).map Prod.fst = d.file :: dict.map (fun i => i.file) := by
    rw [hmain]; simp
  refine ⟨hmain, hkeys, ?_, ?_⟩
  · apply lookup_of_nodup_keys
    · rw [hkeys]; exact hnd
    · rw [hmain]; exact List.mem_cons_self _ _
  · intro i hi
    apply lookup_of_nodup_keys
    · rw [hkeys]; exact hnd
    · rw [hmain]
      exact List.mem_cons_of_mem _ (List.mem_map.mpr ⟨i, hi, rfl⟩)

/-- Witness for C3's amended theorem: root `R.sol` plus the single node
`T.sol` have pairwise-distinct file names, so the keys are exactly
`[R.sol, T.sol]` and each key holds its node's entry. -/
theorem C3_amended_witness :
    (dupRoot.file :: [dupT1].map (fun i => i.file)).Nodup ∧
    ((makeJsonSources dupRoot [dupT1]).map Prod.fst =
      dupRoot.file :: [dupT1].map (fun i => i.file) ∧
    ∀ i ∈ [dupT1], (makeJsonSources dupRoot [dupT1]).lookup i.file =
      some (sourceEntry i.meta i.requires i.content)) :=
  ⟨by decide, (C3_amended dupRoot [dupT1] (by decide)).2.1,
    (C3_amended dupRoot [dupT1] (by decide)).2.2.2⟩

/--
**C5.** When a round of `makeDependencyList` can select no candidate —
every remaining node has a non-empty unmet import requirement list and a
non-empty inheritance list — the run fails with the cyclic-dependency
error whose report lists every remaining node together with its unmet import
requirements and its inheritance requirements, and `flattenFile`
propagates that failure before any artifact (manifest, flat text, or
compiler input) is produced: the whole run is an `Except.error`, which
carries no `Artifacts` value.
-/
theorem C5_cyclic (dict : List ImportInfo)
    (hne : dict ≠ [])
    (hreq : ∀ i ∈ dict, i.requires ≠ [])
    (hinh : ∀ i ∈ dict, i.inherits ≠ []) :
    makeDependencyList dict =
      .error (.cyclic (dict.map (fun i => (i.file, i.requires, i.inherits)))) ∧
    ∀ (fs : FileStore) (cfg : ResolveConfig) (fuel : Nat) (root : String)
      (d : ResolvedImportInfo),
      resolveFileImports fs cfg fuel root [] 0 = .ok (d, dict) →
      flattenCore fs cfg fuel root =
        .error (.cyclic (dict.map (fun i => (i.file, i.requires, i.inherits)))) := by
  have hf1 : dict.filter (fun i => i.requires.isEmpty) = [] := by
    apply List.filter_eq_nil_iff.mpr
    intro i hi
    simpa [List.isEmpty_iff] using hreq i hi
  have hf2 : dict.filter (fun i => i.inherits.isEmpty) = [] := by
    apply List.filter_eq_nil_iff.mpr
    intro i hi
    simpa [List.isEmpty_iff] using hinh i hi
  have hpeel : peelRound dict =
      .error (.cyclic (dict.map (fun i => (i.file, i.requires, i.inherits)))) := by
    unfold peelRound
    rw [hf1, hf2]
    rfl
  have hmdl : makeDependencyList dict =
      .error (.cyclic (dict.map (fun i => (i.file, i.requires, i.inherits)))) := by
    obtain ⟨l, rest, rfl⟩ : ∃ l rest, dict = l :: rest := by
      cases dict with
      | nil => exact absurd rfl hne
      | cons l rest => exact ⟨l, rest, rfl⟩
    unfold makeDependencyList
    rw [show (l :: rest).length = rest.length + 1 from rfl]
    unfold mdlAux
    rw [hpeel]
  refine ⟨hmdl, ?_⟩
  intro fs cfg fuel root d hres
  unfold flattenCore
  rw [hres]
  dsimp only
  rw [hmdl]

/-- Witness for C5 at the concrete stuck two-node cycle. -/
theorem C5_cyclic_witness :
    [stuckX, stuckY] ≠ [] ∧ (∀ i ∈ [stuckX, stuckY], i.requires ≠ []) ∧
    (∀ i ∈ [stuckX, stuckY], i.inherits ≠ []) ∧
    makeDependencyList [stuckX, stuckY] =
      .error (.cyclic [("X", ["/Y"], ["Y"]), ("Y", ["/X"], ["X"])]) :=
  ⟨by decide, by decide, by decide,
    (C5_cyclic [stuckX, stuckY] (by decide) (by decide) (by decide)).1⟩

/--
**C4, counterexample.** The target `/y.sol` flattens fine on its own, but
in the batch `["/x.sol", "/y.sol"]` the resolution error of `/x.sol`
(import of a non-existent `./gone.sol`) propagates out of `batchFlatten`'s
loop — there is no try/catch — so the batch as a whole fails and the
subsequent target `/y.sol` is never processed, contradicting the claim
that the batch continues past a failed target.
-/
theorem C4_counterexample :
    (∃ a, flattenCore errFS flatCfg 4 "/y.sol" = .ok a) ∧
    batchFlatten errFS flatCfg 4 ["/x.sol", "/y.sol"] =
      .error (.resolutionError "/gone.sol") :=
  ⟨⟨_, rfl⟩, rfl⟩

/--
**C4, amended.** A `ResolutionError` (or any thrown error) while flattening
one target is fatal to the *entire batch*: if every target before `t`
succeeds and `t` fails with `e`, then `batchFlatten` on
`pre ++ t :: post` returns `error e`, and the targets after `t` are never
processed (the batch produces no artifact list at all).
-/
theorem C4_amended (fs : FileStore) (cfg : ResolveConfig) (fuel : Nat) (e : FlattenError) :
    ∀ (pre : List String) (t : String) (post : List String),
      (∀ b ∈ pre, ∃ a, flattenCore fs cfg fuel b = .ok a) →
      flattenCore fs cfg fuel t = .error e →
      batchFlatten fs cfg fuel (pre ++ t :: post) = .error e
  | [], t, post, _, ht => by
    rw [List.nil_append]
    unfold batchFlatten
    rw [ht]
  | b :: pre, t, post, hpre, ht => by
    obtain ⟨a, ha⟩ := hpre b (by simp)
    have ih := C4_amended fs cfg fuel e pre t post (fun b' hb' => hpre b' (by simp [hb'])) ht
    rw [List.cons_append]
    unfold batchFlatten
    rw [ha, ih]

/-- Witness for C4's amended theorem at the concrete batch
`[/y.sol, /x.sol, /y.sol]`: the leading target succeeds, the middle one
fails to resolve, and the whole batch errors. -/
theorem C4_amended_witness :
    (∀ b ∈ ["/y.sol"], ∃ a, flattenCore errFS flatCfg 4 b = .ok a) ∧
    flattenCore errFS flatCfg 4 "/x.sol" = .error (.resolutionError "/gone.sol") ∧
    batchFlatten errFS flatCfg 4 (["/y.sol"] ++ "/x.sol" :: ["/y.sol"]) =
      .error (.resolutionError "/gone.sol") :=
  ⟨fun b hb => by
    rw [List.mem_singleton] at hb
    subst hb
    exact ⟨_, rfl⟩,
   rfl,
   C4_amended errFS flatCfg 4 (.resolutionError "/gone.sol") ["/y.sol"] "/x.sol" ["/y.sol"]
     (fun b hb => by
       rw [List.mem_singleton] at hb
       subst hb
       exact ⟨_, rfl⟩)
     rfl⟩

/--
**C9, counterexample.** A *root* that imports itself is not a no-op
revisit: the root is never pre-registered, so its self-import fails the
already-registered check, a fresh registry node with the root's own path is
created and resolved as a child, and the manifest then lists the root as
its own dependency — the flat artifact carries the root's body twice. So
the "no special case — including the root" part of the claim is false.
-/
theorem C9_counterexample :
    (resolveFileImports selfFS flatCfg 10 "/r.sol" [] 0).map
        (fun p => (p.1.path, p.2.map (fun i => i.path))) = .ok ("/r.sol", ["/r.sol"]) ∧
    (flattenCore selfFS flatCfg 10 "/r.sol").map Artifacts.info = .ok [("/r.sol", 1)] :=
  ⟨rfl, rfl⟩

theorem updateFirst_map_path (q : ImportInfo → Bool) (f : ImportInfo → ImportInfo)
    (hf : ∀ i, (f i).path = i.path) :
    ∀ l : List ImportInfo, (updateFirst q f l).map (fun i => i.path) = l.map (fun i => i.path)
  | [] => rfl
  | x :: xs => by
    unfold updateFirst
    by_cases hx : q x
    · rw [if_pos hx]
      simp [hf x]
    · rw [if_neg hx]
      simp [updateFirst_map_path q f hf xs]

theorem updateFirst_level_mono (q : ImportInfo → Bool) (lvl : Nat) :
    ∀ l : List ImportInfo, ∀ j ∈ l,
      ∃ j' ∈ updateFirst q (fun m => { m with level := max m.level lvl }) l,
        j'.path = j.path ∧ j.level ≤ j'.level
  | x :: xs, j, hj => by
    unfold updateFirst
    by_cases hx : q x
    · rw [if_pos hx]
      rcases List.mem_cons.mp hj with rfl | hj'
      · exact ⟨{ j with level := max j.level lvl }, by simp, rfl, Nat.le_max_left _ _⟩
      · exact ⟨j, by simp [hj'], rfl, Nat.le_refl _⟩
    · rw [if_neg hx]
      rcases List.mem_cons.mp hj with rfl | hj'
      · exact ⟨j, by simp, rfl, Nat.le_refl _⟩
      · obtain ⟨j', hj'm, hp, hl⟩ := updateFirst_level_mono q lvl xs j hj'
        exact ⟨j', by simp [hj'm], hp, hl⟩

theorem updateFirst_level_hit (p : String) (lvl : Nat) :
    ∀ l : List ImportInfo, p ∈ l.map (fun i => i.path) →
      ∃ j' ∈ updateFirst (fun m => m.path == p)
          (fun m => { m with level := max m.level lvl }) l,
        j'.path = p ∧ lvl ≤ j'.level
  | x :: xs, hp => by
    unfold updateFirst
    by_cases hx : x.path = p
    · rw [if_pos (by simp [hx])]
      exact ⟨{ x with level := max x.level lvl }, by simp, hx, Nat.le_max_right _ _⟩
    · rw [if_neg (by simp [hx])]
      have hp' : p ∈ xs.map (fun i => i.path) := by
        rcases List.mem_cons.mp hp with h | h
        · exact absurd h.symm hx
        · exact h
      obtain ⟨j', hm, hpx, hl⟩ := updateFirst_level_hit p lvl xs hp'
      exact ⟨j', by simp [hm], hpx, hl⟩

theorem checkImportLevels_aux (level : Nat) :
    ∀ (imports : List String) (acc1 : List String) (acc2 : List ImportInfo),
      (imports.foldl
        (fun acc i =>
          if acc.2.any (fun m => m.path == i) then
            (acc.1, updateFirst (fun m => m.path == i)
              (fun m => { m with level := max m.level level }) acc.2)
          else (acc.1 ++ [i], acc.2)) (acc1, acc2)).2.map (fun i => i.path) =
        acc2.map (fun i => i.path) ∧
      (∀ x ∈ (imports.foldl
        (fun acc i =>
          if acc.2.any (fun m => m.path == i) then
            (acc.1, updateFirst (fun m => m.path == i)
              (fun m => { m with level := max m.level level }) acc.2)
          else (acc.1 ++ [i], acc.2)) (acc1, acc2)).1,
        x ∈ acc1 ∨ (x ∈ imports ∧ x ∉ acc2.map (fun i => i.path))) ∧
      (∀ j ∈ acc2, ∃ j' ∈ (imports.foldl
        (fun acc i =>
          if acc.2.any (fun m => m.path == i) then
            (acc.1, updateFirst (fun m => m.path == i)
              (fun m => { m with level := max m.level level }) acc.2)
          else (acc.1 ++ [i], acc.2)) (acc1, acc2)).2,
        j'.path = j.path ∧ j.level ≤ j'.level) ∧
      (∀ q ∈ imports, q ∈ acc2.map (fun i => i.path) → ∃ j' ∈ (imports.foldl
        (fun acc i =>
          if acc.2.any (fun m => m.path == i) then
            (acc.1, updateFirst (fun m => m.path == i)
              (fun m => { m with level := max m.level level }) acc.2)
          else (acc.1 ++ [i], acc.2)) (acc1, acc2)).2,
        j'.path = q ∧ level ≤ j'.level)
  | [], acc1, acc2 => by
    refine ⟨rfl, ?_, ?_, ?_⟩
    · intro x hx; exact Or.inl hx
    · intro j hj; exact ⟨j, hj, rfl, Nat.le_refl _⟩
    · intro q hq; cases hq
  | i :: imports, acc1, acc2 => by
    rw [List.foldl_cons]
    by_cases hi : acc2.any (fun m => m.path == i)
    · rw [if_pos hi]
      set acc2' := updateFirst (fun m => m.path == i)
        (fun m => { m with level := max m.level level }) acc2 with hacc2'
      obtain ⟨hpaths, hqueue, hmono, hhit⟩ := checkImportLevels_aux level imports acc1 acc2'
      have hpp : acc2'.map (fun j => j.path) = acc2.map (fun j => j.path) :=
        updateFirst_map_path (fun m => m.path == i)
          (fun m => { m with level := max m.level level }) (fun _ => rfl) acc2
      refine ⟨by rw [hpaths, hpp], ?_, ?_, ?_⟩
      · intro x hx
        rcases hqueue x hx with h | ⟨h1, h2⟩
        · exact Or.inl h
        · exact Or.inr ⟨by simp [h1], by rw [← hpp]; exact h2⟩
      · intro j hj
        obtain ⟨j1, hj1, hp1, hl1⟩ := updateFirst_level_mono (fun m => m.path == i) level acc2 j hj
        obtain ⟨j2, hj2, hp2, hl2⟩ := hmono j1 hj1
        exact ⟨j2, hj2, by rw [hp2, hp1], Nat.le_trans hl1 hl2⟩
      · intro q hq hqp
        rcases List.mem_cons.mp hq with rfl | hq'
        · obtain ⟨j1, hj1, hp1, hl1⟩ := updateFirst_level_hit q level acc2 hqp
          obtain ⟨j2, hj2, hp2, hl2⟩ := hmono j1 hj1
          exact ⟨j2, hj2, by rw [hp2, hp1], Nat.le_trans hl1 hl2⟩
        · exact hhit q hq' (by rw [hpp]; exact hqp)
    · rw [if_neg hi]
      obtain ⟨hpaths, hqueue, hmono, hhit⟩ :=
        checkImportLevels_aux level imports (acc1 ++ [i]) acc2
      have hnotin : i ∉ acc2.map (fun m => m.path) := by
        intro hmem
        apply hi
        obtain ⟨m, hm, hpm⟩ := List.mem_map.mp hmem
        exact List.any_eq_true.mpr ⟨m, hm, by simp [hpm]⟩
      refine ⟨hpaths, ?_, hmono, ?_⟩
      · intro x hx
        rcases hqueue x hx with h | ⟨h1, h2⟩
        · rcases List.mem_append.mp h with h' | h'
          · exact Or.inl h'
          · have : x = i := by simpa using h'
            exact Or.inr ⟨by simp [this], this ▸ hnotin⟩
        · exact Or.inr ⟨by simp [h1], h2⟩
      · intro q hq hqp
        rcases List.mem_cons.mp hq with rfl | hq'
        · exact absurd hqp hnotin
        · exact hhit q hq' hqp

/--
**C9, amended.** Resolution treats an import of an *already-registered*
file as a no-op revisit: the registry's path list is unchanged (no new
node, no rescan — the path is never queued for resolution), every node's
stored discovery depth is only ever raised, and the revisited node's depth
is raised to at least the new level (the code takes `max(existing, new)`).
Since a non-root file is registered before its own imports are processed,
this covers a non-root file importing itself; the root itself is never
pre-registered, so a self-importing root instead creates a new registry
node for the root's path (see the counterexample).
-/
theorem C9_amended (dict : List ImportInfo) (imports : List String) (level : Nat) (p : String)
    (hp : p ∈ dict.map (fun i => i.path)) :
    (checkImportLevels dict imports level).2.map (fun i => i.path) =
      dict.map (fun i => i.path) ∧
    p ∉ (checkImportLevels dict imports level).1 ∧
    (∀ j ∈ dict, ∃ j' ∈ (checkImportLevels dict imports level).2,
        j'.path = j.path ∧ j.level ≤ j'.level) ∧
    (p ∈ imports → ∃ j' ∈ (checkImportLevels dict imports level).2,
        j'.path = p ∧ level ≤ j'.level) := by
  obtain ⟨hpaths, hqueue, hmono, hhit⟩ := checkImportLevels_aux level imports [] dict
  refine ⟨hpaths, ?_, hmono, fun hpi => hhit p hpi hp⟩
  intro hmem
  rcases hqueue p hmem with h | ⟨-, h2⟩
  · cases h
  · exact h2 hp

theorem uniqueKeep_aux : ∀ (ls acc : List String), acc.Nodup →
    (ls.foldl (fun acc i => if i ∈ acc then acc else acc ++ [i]) acc).Nodup
  | [], _, h => h
  | i :: ls, acc, h => by
    rw [List.foldl_cons]
    by_cases hi : i ∈ acc
    · rw [if_pos hi]
      exact uniqueKeep_aux ls acc h
    · rw [if_neg hi]
      exact uniqueKeep_aux ls (acc ++ [i])
        (by rw [List.nodup_append]; exact ⟨h, List.nodup_singleton i, by simpa using hi⟩)

/-- `uniqueImports` keeps no duplicates: two specifiers canonicalizing to
the same real path contribute a single entry. -/
theorem uniqueKeep_nodup (ls : List String) : (uniqueKeep ls).Nodup :=
  uniqueKeep_aux ls [] List.nodup_nil

theorem getFileImports_imports_nodup (cfg : ResolveConfig) (fs : FileStore) (f : String)
    (fi : FileImport) (h : getFileImports cfg fs f = .ok fi) : fi.imports.Nodup := by
  unfold getFileImports at h
  cases hr : fs.read f with
  | error e => rw [hr] at h; exact absurd h (by simp)
  | ok raw =>
    rw [hr] at h
    dsimp only at h
    cases hs : scanLoop cfg fs (dirOf f) (splitLines raw).length (splitLines raw) with
    | error e => rw [hs] at h; exact absurd h (by simp)
    | ok tri =>
      obtain ⟨i, c, m⟩ := tri
      rw [hs] at h
      dsimp only at h
      have := (Except.ok.inj h).symm
      rw [this]
      exact uniqueKeep_nodup i

theorem checkImportLevels_fst (level : Nat) :
    ∀ (imports acc1 : List String) (acc2 : List ImportInfo),
      (imports.foldl
        (fun acc i =>
          if acc.2.any (fun m => m.path == i) then
            (acc.1, updateFirst (fun m => m.path == i)
              (fun m => { m with level := max m.level level }) acc.2)
          else (acc.1 ++ [i], acc.2)) (acc1, acc2)).1 =
        acc1 ++ imports.filter (fun i => decide (i ∉ acc2.map (fun m => m.path)))
  | [], acc1, acc2 => by simp
  | i :: imports, acc1, acc2 => by
    rw [List.foldl_cons, List.filter_cons]
    by_cases hi : acc2.any (fun m => m.path == i)
    · rw [if_pos hi]
      have hmem : i ∈ acc2.map (fun m => m.path) := by
        obtain ⟨m, hm, hpm⟩ := List.any_eq_true.mp hi
        exact List.mem_map.mpr ⟨m, hm, by simpa using hpm⟩
      rw [checkImportLevels_fst level imports acc1 _]
      have hpp : (updateFirst (fun m => m.path == i)
          (fun m => { m with level := max m.level level }) acc2).map (fun m => m.path) =
          acc2.map (fun m => m.path) :=
        updateFirst_map_path (fun m => m.path == i)
          (fun m => { m with level := max m.level level }) (fun _ => rfl) acc2
      rw [hpp]
      simp [hmem]
    · rw [if_neg hi]
      have hmem : i ∉ acc2.map (fun m => m.path) := by
        intro hmem
        apply hi
        obtain ⟨m, hm, hpm⟩ := List.mem_map.mp hmem
        exact List.any_eq_true.mpr ⟨m, hm, by simp [hpm]⟩
      rw [checkImportLevels_fst level imports (acc1 ++ [i]) acc2]
      simp [hmem]

theorem childStep_error (resolveFn : String → List ImportInfo →
    Except FlattenError (ResolvedImportInfo × List ImportInfo)) (e : FlattenError) :
    ∀ rs : List String, rs.foldl (childStep resolveFn) (.error e) = .error e
  | [] => rfl
  | _ :: rs => childStep_error resolveFn e rs

theorem childFold_paths (resolveFn : String → List ImportInfo →
    Except FlattenError (ResolvedImportInfo × List ImportInfo))
    (hres : ∀ (r : String) (dct : List ImportInfo) (d : ResolvedImportInfo)
      (dct' : List ImportInfo), resolveFn r dct = .ok (d, dct') →
      ∃ extra : List String,
        (dct'.map (fun i => i.path)).Perm (dct.map (fun i => i.path) ++ extra) ∧
        (∀ p ∈ extra, p ∉ dct.map (fun i => i.path)) ∧ extra.Nodup) :
    ∀ (rs : List String) (dct dct' : List ImportInfo),
      rs.foldl (childStep resolveFn) (.ok dct) = .ok dct' →
      ∃ extra : List String,
        (dct'.map (fun i => i.path)).Perm (dct.map (fun i => i.path) ++ extra) ∧
        (∀ p ∈ extra, p ∉ dct.map (fun i => i.path)) ∧ extra.Nodup
  | [], dct, dct', h => by
    obtain rfl : dct = dct' := Except.ok.inj h
    exact ⟨[], by simp, by simp, List.nodup_nil⟩
  | r :: rs, dct, dct', h => by
    rw [List.foldl_cons] at h
    cases hr : resolveFn r dct with
    | error e =>
      rw [show childStep resolveFn (.ok dct) r = .error e by
        unfold childStep; dsimp only; rw [hr], childStep_error] at h
      exact absurd h (by simp)
    | ok pr =>
      obtain ⟨d, dctm⟩ := pr
      rw [show childStep resolveFn (.ok dct) r =
          .ok (updateFirst (fun i => i.path == r)
            (fun i => { i with
                        content := some d.content, meta := some d.meta,
                        requires := d.requires, inherits := d.inherits }) dctm) by
        unfold childStep; dsimp only; rw [hr]] at h
      set dct2 := updateFirst (fun i => i.path == r)
        (fun i => { i with
                    content := some d.content, meta := some d.meta,
                    requires := d.requires, inherits := d.inherits }) dctm with hdct2
      have hpp : dct2.map (fun i => i.path) = dctm.map (fun i => i.path) :=
        updateFirst_map_path (fun i => i.path == r)
          (fun i => { i with
                      content := some d.content, meta := some d.meta,
                      requires := d.requires, inherits := d.inherits }) (fun _ => rfl) dctm
      obtain ⟨e1, hperm1, hfresh1, hnd1⟩ := hres r dct d dctm hr
      obtain ⟨e2, hperm2, hfresh2, hnd2⟩ := childFold_paths resolveFn hres rs dct2 dct' h
      refine ⟨e1 ++ e2, ?_, ?_, ?_⟩
      · have h1 : (dct'.map (fun i => i.path)).Perm (dctm.map (fun i => i.path) ++ e2) := by
          rw [← hpp]; exact hperm2
        have h2 := h1.trans (hperm1.append_right e2)
        rw [List.append_assoc] at h2
        exact h2
      · intro p hp
        rcases List.mem_append.mp hp with hp1 | hp2
        · exact hfresh1 p hp1
        · intro hpd
          apply hfresh2 p hp2
          rw [hpp, hperm1.mem_iff]
          exact List.mem_append.mpr (Or.inl hpd)
      · rw [List.nodup_append]
        refine ⟨hnd1, hnd2, ?_⟩
        intro p hp1 hp2
        apply hfresh2 p hp2
        rw [hpp, hperm1.mem_iff]
        exact List.mem_append.mpr (Or.inr hp1)

/-- Paths invariant of `resolveFileImports`: a successful resolution leaves
the incoming registry's path list intact (as a multiset) and appends only
fresh, pairwise-distinct canonical paths — so the registry never acquires
two nodes with the same canonical path. -/
theorem resolve_paths (fs : FileStore) (cfg : ResolveConfig) :
    ∀ (fuel : Nat) (file : String) (dict : List ImportInfo) (level : Nat)
      (d : ResolvedImportInfo) (dict' : List ImportInfo),
      resolveFileImports fs cfg fuel file dict level = .ok (d, dict') →
      ∃ extra : List String,
        (dict'.map (fun i => i.path)).Perm (dict.map (fun i => i.path) ++ extra) ∧
        (∀ p ∈ extra, p ∉ dict.map (fun i => i.path)) ∧ extra.Nodup
  | 0, _, _, _, _, _, h => absurd h (by simp [resolveFileImports])
  | fuel + 1, file, dict, level, d, dict', h => by
    rw [resolveFileImports] at h
    cases hrp : fs.realpath file with
    | error e => rw [hrp] at h; exact absurd h (by simp)
    | ok fPath0 =>
      rw [hrp] at h
      dsimp only at h
      cases hgi : getFileImports cfg fs (slashify fPath0) with
      | error e => rw [hgi] at h; exact absurd h (by simp)
      | ok data =>
        rw [hgi] at h
        dsimp only at h
        cases hfold : (checkImportLevels dict data.imports level).1.foldl
            (childStep (fun r dct => resolveFileImports fs cfg fuel r dct (level + 1)))
            (.ok ((checkImportLevels dict data.imports level).2 ++
              (checkImportLevels dict data.imports level).1.map (fun r => mkNode r level))) with
        | error e => rw [hfold] at h; exact absurd h (by simp)
        | ok dict3 =>
          rw [hfold] at h
          dsimp only at h
          obtain ⟨-, hdict'⟩ := Prod.mk.injEq .. ▸ Except.ok.inj h
          have hrd2 : (checkImportLevels dict data.imports level).2.map (fun i => i.path) =
              dict.map (fun i => i.path) :=
            (checkImportLevels_aux level data.imports [] dict).1
          have hrd1 : (checkImportLevels dict data.imports level).1 =
              data.imports.filter (fun i => decide (i ∉ dict.map (fun m => m.path))) :=
            checkImportLevels_fst level data.imports [] dict
          have hrd1nd : (checkImportLevels dict data.imports level).1.Nodup := by
            rw [hrd1]
            exact (List.filter_sublist _).nodup
              (getFileImports_imports_nodup cfg fs (slashify fPath0) data hgi)
          have hrd1fresh : ∀ p ∈ (checkImportLevels dict data.imports level).1,
              p ∉ dict.map (fun i => i.path) := by
            intro p hp
            rw [hrd1] at hp
            simpa using (List.mem_filter.mp hp).2
          have hdict2 : ((checkImportLevels dict data.imports level).2 ++
              (checkImportLevels dict data.imports level).1.map (fun r => mkNode r level)).map
                (fun i => i.path) =
              dict.map (fun i => i.path) ++ (checkImportLevels dict data.imports level).1 := by
            rw [List.map_append, hrd2, List.map_map]
            congr 1
            exact List.map_id ..
          obtain ⟨e3, hperm3, hfresh3, hnd3⟩ :=
            childFold_paths (fun r dct => resolveFileImports fs cfg fuel r dct (level + 1))
              (fun r dct dd dct2 hh => resolve_paths fs cfg fuel r dct (level + 1) dd dct2 hh)
              (checkImportLevels dict data.imports level).1 _ dict3 hfold
          rw [hdict2] at hperm3 hfresh3
          refine ⟨(checkImportLevels dict data.imports level).1 ++ e3, ?_, ?_, ?_⟩
          · have h1 : (dict'.map (fun i => i.path)).Perm (dict3.map (fun i => i.path)) := by
              rw [← hdict']
              exact (List.perm_insertionSort
                (fun a b : ImportInfo => a.level ≤ b.level) dict3).map (fun i => i.path)
            have h2 := h1.trans hperm3
            rw [List.append_assoc] at h2
            exact h2
          · intro p hp
            rcases List.mem_append.mp hp with hp1 | hp2
            · exact hrd1fresh p hp1
            · intro hpd
              exact hfresh3 p hp2 (List.mem_append.mpr (Or.inl hpd))
          · rw [List.nodup_append]
            refine ⟨hrd1nd, hnd3, ?_⟩
            intro p hp1 hp2
            exact hfresh3 p hp2 (List.mem_append.mpr (Or.inr hp1))

theorem findIdx_append_lt (p : String) :
    ∀ (l m : List String), p ∈ l →
      (l ++ m).findIdx (fun q => q == p) < l.length
  | x :: l, m, hp => by
    rw [List.cons_append, List.findIdx_cons]
    by_cases hx : x = p
    · rw [show (x == p) = true by simp [hx], cond_true]
      simp
    · rw [show (x == p) = false by simp [hx], cond_false]
      have hp' : p ∈ l := by
        rcases List.mem_cons.mp hp with h | h
        · exact absurd h.symm hx
        · exact h
      have := findIdx_append_lt p l m hp'
      simp only [List.length_cons]
      omega

theorem findIdx_append_ge (p : String) :
    ∀ (l m : List String), p ∉ l →
      (l ++ m).findIdx (fun q => q == p) = l.length + m.findIdx (fun q => q == p)
  | [], m, _ => by simp
  | x :: l, m, hp => by
    rw [List.cons_append, List.findIdx_cons]
    have hx : ¬ x = p := fun hxx => hp (by simp [hxx])
    rw [show (x == p) = false by simp [hx], cond_false,
      findIdx_append_ge p l m (fun hm => hp (by simp [hm]))]
    simp only [List.length_cons]
    omega

theorem erase_foldl_eq_filter :
    ∀ (ps : List String) (l : List String), l.Nodup →
      ps.foldl (fun acc p => acc.erase p) l = l.filter (fun x => decide (x ∉ ps))
  | [], l, _ => by simp
  | p :: ps, l, hnd => by
    rw [List.foldl_cons, erase_foldl_eq_filter ps (l.erase p) (hnd.erase p),
      hnd.erase_eq_filter p, List.filter_filter]
    congr 1
    funext x
    by_cases h1 : x = p <;> by_cases h2 : x ∈ ps <;> simp [h1, h2]

theorem exists_min_rank (rank : String → Nat) :
    ∀ (l : List ImportInfo), l ≠ [] →
      ∃ a ∈ l, ∀ b ∈ l, rank a.path ≤ rank b.path
  | [x], _ => ⟨x, by simp, by simp⟩
  | x :: y :: xs, _ => by
    obtain ⟨a, ha, hmin⟩ := exists_min_rank rank (y :: xs) (by simp)
    by_cases hx : rank x.path ≤ rank a.path
    · refine ⟨x, by simp, ?_⟩
      intro b hb
      rcases List.mem_cons.mp hb with rfl | hb'
      · exact Nat.le_refl _
      · exact Nat.le_trans hx (hmin b hb')
    · refine ⟨a, by simp [ha], ?_⟩
      intro b hb
      rcases List.mem_cons.mp hb with rfl | hb'
      · omega
      · exact hmin b hb'

theorem foldl_erase_paths :
    ∀ (nd : List ImportInfo) (init : List String),
      nd.foldl (fun rq d => rq.erase d.path) init =
        (nd.map (fun d => d.path)).foldl (fun rq p => rq.erase p) init
  | [], _ => rfl
  | d :: nd, init => by
    rw [List.foldl_cons, List.map_cons, List.foldl_cons, foldl_erase_paths nd]

theorem remdeps_map_form :
    ∀ (nd : List ImportInfo) (l : List ImportInfo),
      nd.foldl (fun acc d => removeDependency acc d.path) l = l.map (eraseReqs nd)
  | [], l => by
    simp only [List.foldl_nil]
    symm
    have h0 : eraseReqs [] = id := by
      funext i
      rfl
    rw [h0, List.map_id]
  | x :: nd, l => by
    rw [List.foldl_cons, remdeps_map_form nd]
    unfold removeDependency
    rw [List.map_map]
    rfl

theorem remdeps_paths :
    ∀ (nd : List ImportInfo) (l : List ImportInfo),
      (nd.foldl (fun acc d => removeDependency acc d.path) l).map (fun i => i.path) =
        l.map (fun i => i.path)
  | [], l => rfl
  | x :: nd, l => by
    rw [List.foldl_cons, remdeps_paths nd]
    unfold removeDependency
    rw [List.map_map]
    rfl

theorem bool_not_filter (f : ImportInfo → Bool) :
    (fun i => decide ¬(f i = true)) = (fun i => !(f i)) := by
  funext i
  cases h : f i <;> simp [h]

theorem peelRound_paths (dict nd rest : List ImportInfo)
    (h : peelRound dict = .ok (nd, rest)) :
    (nd.map (fun i => i.path) ++ rest.map (fun i => i.path)).Perm
      (dict.map (fun i => i.path)) := by
  unfold peelRound at h
  dsimp only at h
  cases h1 : (dict.filter (fun i => i.requires.isEmpty)).isEmpty with
  | false =>
    rw [h1, if_neg (by simp)] at h
    obtain ⟨rfl, rfl⟩ := Prod.mk.injEq .. ▸ Except.ok.inj h
    rw [remdeps_paths, ← List.map_append]
    refine List.Perm.map _ ?_
    have := List.filter_append_perm (fun i => i.requires.isEmpty) dict
    rw [show (dict.filter (fun i => decide ¬(i.requires.isEmpty = true))) =
        (dict.filter (fun i => !(i.requires.isEmpty))) by rw [bool_not_filter]]
    exact this
  | true =>
    rw [h1, if_pos rfl] at h
    cases h2 : (dict.filter (fun i => i.inherits.isEmpty)).isEmpty with
    | true => rw [h2, if_pos rfl] at h; exact absurd h (by simp)
    | false =>
      rw [h2, if_neg (by simp)] at h
      obtain ⟨rfl, rfl⟩ := Prod.mk.injEq .. ▸ Except.ok.inj h
      rw [remdeps_paths, ← List.map_append]
      refine List.Perm.map _ ?_
      have := List.filter_append_perm (fun i => i.inherits.isEmpty) dict
      rw [show (dict.filter (fun i => decide ¬(i.inherits.isEmpty = true))) =
          (dict.filter (fun i => !(i.inherits.isEmpty))) by rw [bool_not_filter]]
      exact this

theorem mdl_paths : ∀ (fuel : Nat) (dict deps out : List ImportInfo),
    mdlAux fuel dict deps = .ok out →
    (out.map (fun i => i.path)).Perm
      (deps.map (fun i => i.path) ++ dict.map (fun i => i.path))
  | fuel, [], deps, out, h => by
    have hh : mdlAux fuel [] deps = .ok deps := by cases fuel <;> rfl
    rw [hh] at h
    obtain rfl := Except.ok.inj h
    simp
  | 0, l :: rest, deps, out, h => absurd h (by simp [mdlAux])
  | fuel + 1, l :: rest, deps, out, h => by
    rw [mdlAux] at h
    cases hp : peelRound (l :: rest) with
    | error e => rw [hp] at h; exact absurd h (by simp)
    | ok pr =>
      obtain ⟨nd, rest'⟩ := pr
      rw [hp] at h
      dsimp only at h
      have ih := mdl_paths fuel rest' (deps ++ nd) out h
      have hpp := peelRound_paths (l :: rest) nd rest' hp
      rw [List.map_append, List.append_assoc] at ih
      exact ih.trans ((List.Perm.refl _).append hpp)

theorem makeDependencyList_paths (dict deps dict' : List ImportInfo)
    (h : makeDependencyList dict = .ok (deps, dict')) :
    (deps.map (fun i => i.path)).Perm (dict.map (fun i => i.path)) ∧
    (dict'.map (fun i => i.path)).Perm (dict.map (fun i => i.path)) := by
  unfold makeDependencyList at h
  cases hm : mdlAux dict.length dict [] with
  | error e => rw [hm] at h; exact absurd h (by simp)
  | ok deps0 =>
    rw [hm] at h
    dsimp only at h
    obtain ⟨h1, h2⟩ := Prod.mk.injEq .. ▸ Except.ok.inj h
    have hp0 := mdl_paths dict.length dict [] deps0 hm
    rw [List.map_nil, List.nil_append] at hp0
    have hdeps_paths : deps.map (fun i => i.path) = deps0.map (fun i => i.path) := by
      rw [← h1, List.map_map]
      have he : ((fun i => i.path) ∘ fun p : Nat × ImportInfo =>
          ({ p.2 with level := deps0.length - p.1 } : ImportInfo)) =
          ((fun i => i.path) ∘ Prod.snd) := rfl
      rw [he, ← List.map_map, List.enum_map_snd]
    refine ⟨by rw [hdeps_paths]; exact hp0, ?_⟩
    have hsort : (dict'.map (fun i => i.path)).Perm (deps.map (fun i => i.path)) := by
      rw [← h2, h1]
      exact (List.perm_insertionSort
        (fun a b : ImportInfo => a.level ≤ b.level) deps).map (fun i => i.path)
    rw [hdeps_paths] at hsort
    exact hsort.trans hp0

/--
**C7.** Canonical-path deduplication. Every successful scan's import list
is duplicate-free (distinct specifiers that canonicalize to the same real
path collapse to one entry); a successful resolution run starting from the
empty registry yields a registry whose canonical paths are pairwise
distinct; and for each registered canonical path there is exactly one
registry node, which owns exactly one content block of the flat artifact's
block list and contributes exactly one key assignment to the compiler
input (which is built with one assignment per block).
-/
theorem C7_dedup (fs : FileStore) (cfg : ResolveConfig) (fuel : Nat) (root : String)
    (d : ResolvedImportInfo) (dict deps dict' : List ImportInfo)
    (hrun : resolveFileImports fs cfg fuel root [] 0 = .ok (d, dict))
    (hmdl : makeDependencyList dict = .ok (deps, dict')) :
    (∀ (cfg2 : ResolveConfig) (fs2 : FileStore) (f : String) (fi : FileImport),
      getFileImports cfg2 fs2 f = .ok fi → fi.imports.Nodup) ∧
    (dict.map (fun i => i.path)).Nodup ∧
    ∀ p ∈ dict.map (fun i => i.path),
      dict.countP (fun i => i.path == p) = 1 ∧
      (makeFlatFile d dict').2.countP (fun i => i.path == p) = 1 := by
  obtain ⟨extra, hperm, -, hnde⟩ := resolve_paths fs cfg fuel root [] 0 d dict hrun
  rw [List.map_nil, List.nil_append] at hperm
  have hnd : (dict.map (fun i => i.path)).Nodup := hperm.nodup_iff.mpr hnde
  refine ⟨getFileImports_imports_nodup, hnd, ?_⟩
  intro p hp
  have hcount1 : dict.countP (fun i => i.path == p) = 1 := by
    have hc : dict.countP (fun i => i.path == p) = (dict.map (fun i => i.path)).count p := by
      rw [List.count_eq_countP, List.countP_map]
      rfl
    rw [hc]
    exact List.count_eq_one_of_mem hnd hp
  refine ⟨hcount1, ?_⟩
  have hsd : (makeFlatFile d dict').2 = sortLevelDesc dict' := rfl
  have hperm2 : ((sortLevelDesc dict').map (fun i => i.path)).Perm
      (dict.map (fun i => i.path)) :=
    ((List.perm_insertionSort (fun a b : ImportInfo => b.level ≤ a.level) dict').map
      (fun i => i.path)).trans (makeDependencyList_paths dict deps dict' hmdl).2
  have hc2 : (sortLevelDesc dict').countP (fun i => i.path == p) =
      ((sortLevelDesc dict').map (fun i => i.path)).count p := by
    rw [List.count_eq_countP, List.countP_map]
    rfl
  rw [hsd, hc2, hperm2.count_eq]
  have hc3 : (dict.map (fun i => i.path)).count p = dict.countP (fun i => i.path == p) := by
    rw [List.count_eq_countP, List.countP_map]
    rfl
  rw [hc3, hcount1]

/--
Main induction for the topological-order property of the leveling loop.
`E` records every node's original import-requirement list by canonical
path; `rank` witnesses acyclicity of the import graph. The invariants: each
remaining node's requirement list is its original one minus the
already-emitted paths; requirements of remaining nodes resolve inside the
emitted-or-remaining path set; and `rank` strictly decreases along edges
into still-remaining nodes. Conclusion: the loop peels purely by imports
(never stalling), emits everything, and every still-pending requirement
ends up at a strictly earlier emission index.
-/
theorem mdl_main (E : String → List String) (rank : String → Nat)
    (hE : ∀ p, (E p).Nodup) :
    ∀ (fuel : Nat) (dict deps : List ImportInfo),
      dict.length ≤ fuel →
      (deps.map (fun i => i.path) ++ dict.map (fun i => i.path)).Nodup →
      (∀ i ∈ dict, i.requires =
        (E i.path).filter (fun r => decide (r ∉ deps.map (fun j => j.path)))) →
      (∀ p ∈ dict.map (fun i => i.path), ∀ r ∈ E p,
        r ∈ deps.map (fun j => j.path) ∨ r ∈ dict.map (fun j => j.path)) →
      (∀ p ∈ dict.map (fun i => i.path), ∀ r ∈ E p,
        r ∈ dict.map (fun j => j.path) → rank r < rank p) →
      ∃ suffix : List ImportInfo,
        mdlAux fuel dict deps = .ok (deps ++ suffix) ∧
        (suffix.map (fun i => i.path)).Perm (dict.map (fun i => i.path)) ∧
        (∀ a ∈ dict, ∀ r ∈ E a.path, r ∉ deps.map (fun j => j.path) →
          ((deps ++ suffix).map (fun i => i.path)).findIdx (fun q => q == r) <
          ((deps ++ suffix).map (fun i => i.path)).findIdx (fun q => q == a.path))
  | fuel, [], deps, _, _, _, _, _ => by
    refine ⟨[], ?_, by simp, by intro a ha; cases ha⟩
    have h0 : mdlAux fuel [] deps = .ok deps := by cases fuel <;> rfl
    rw [h0, List.append_nil]
  | 0, l :: rest, deps, hlen, _, _, _, _ => absurd hlen (by simp)
  | fuel + 1, l :: rest, deps, hlen, hnd, hreq, hclosed, hrank => by
    obtain ⟨amin, hamem, hmin⟩ := exists_min_rank rank (l :: rest) (by simp)
    have hminreq : amin.requires = [] := by
      rw [hreq amin hamem]
      apply List.filter_eq_nil_iff.mpr
      intro r hr
      simp only [decide_eq_true_eq, not_not]
      by_contra hrd
      rcases hclosed amin.path (List.mem_map_of_mem _ hamem) r hr with h | h
      · exact hrd h
      · have hrk := hrank amin.path (List.mem_map_of_mem _ hamem) r hr h
        obtain ⟨b, hb, rfl⟩ := List.mem_map.mp h
        exact absurd (hmin b hb) (by omega)
    have hafilter : amin ∈ (l :: rest).filter (fun i => i.requires.isEmpty) :=
      List.mem_filter.mpr ⟨hamem, by simp [hminreq]⟩
    have hndne : ((l :: rest).filter (fun i => i.requires.isEmpty)).isEmpty = false := by
      cases hfe : ((l :: rest).filter (fun i => i.requires.isEmpty)).isEmpty with
      | false => rfl
      | true =>
        rw [List.isEmpty_iff.mp hfe] at hafilter
        cases hafilter
    have hpeel : peelRound (l :: rest) =
        .ok ((l :: rest).filter (fun i => i.requires.isEmpty),
          ((l :: rest).filter (fun i => i.requires.isEmpty)).foldl
            (fun acc d => removeDependency acc d.path)
            ((l :: rest).filter (fun i => decide ¬(i.requires.isEmpty = true)))) := by
      unfold peelRound
      dsimp only
      rw [hndne, if_neg (by simp)]
    have hpartition : (((l :: rest).filter (fun i => i.requires.isEmpty)).map
          (fun i => i.path) ++
        ((l :: rest).filter (fun i => decide ¬(i.requires.isEmpty = true))).map
          (fun i => i.path)).Perm
        ((l :: rest).map (fun i => i.path)) := by
      rw [← List.map_append]
      refine List.Perm.map _ ?_
      rw [show ((l :: rest).filter (fun i => decide ¬(i.requires.isEmpty = true))) =
          ((l :: rest).filter (fun i => !(i.requires.isEmpty))) by rw [bool_not_filter]]
      exact List.filter_append_perm (fun i => i.requires.isEmpty) (l :: rest)
    have hrest2 := remdeps_map_form ((l :: rest).filter (fun i => i.requires.isEmpty))
      ((l :: rest).filter (fun i => decide ¬(i.requires.isEmpty = true)))
    have hrfpaths : (((l :: rest).filter (fun i => decide ¬(i.requires.isEmpty = true))).map
        (eraseReqs ((l :: rest).filter (fun j => j.requires.isEmpty)))).map (fun i => i.path) =
        ((l :: rest).filter (fun i => decide ¬(i.requires.isEmpty = true))).map
          (fun i => i.path) := by
      rw [List.map_map]
      rfl
    have hreq2 : ∀ i' ∈ ((l :: rest).filter
          (fun i => decide ¬(i.requires.isEmpty = true))).map
          (eraseReqs ((l :: rest).filter (fun j => j.requires.isEmpty))),
        i'.requires = (E i'.path).filter
          (fun r => decide (r ∉ (deps ++ (l :: rest).filter
            (fun j => j.requires.isEmpty)).map (fun j => j.path))) := by
      intro i' hi'
      obtain ⟨i, hi, rfl⟩ := List.mem_map.mp hi'
      show ((l :: rest).filter (fun j => j.requires.isEmpty)).foldl
          (fun rq d => rq.erase d.path) i.requires =
        (E (eraseReqs ((l :: rest).filter (fun j => j.requires.isEmpty)) i).path).filter
          (fun r => decide (r ∉ (deps ++ (l :: rest).filter
            (fun j => j.requires.isEmpty)).map (fun j => j.path)))
      have himem : i ∈ l :: rest := List.mem_of_mem_filter hi
      have hinodup : i.requires.Nodup := by
        rw [hreq i himem]
        exact (List.filter_sublist _).nodup (hE i.path)
      rw [foldl_erase_paths,
        erase_foldl_eq_filter _ _ hinodup, hreq i himem, List.filter_filter]
      congr 1
      funext r
      by_cases h1 : r ∈ deps.map (fun j => j.path) <;>
        by_cases h2 : r ∈ ((l :: rest).filter (fun j => j.requires.isEmpty)).map
          (fun j => j.path) <;>
        simp [h1, h2]
    have hlen2 : (((l :: rest).filter (fun i => decide ¬(i.requires.isEmpty = true))).map
        (eraseReqs ((l :: rest).filter (fun j => j.requires.isEmpty)))).length ≤ fuel := by
      have hl1 := hpartition.length_eq
      rw [List.length_append, List.length_map, List.length_map, List.length_map] at hl1
      have hl2 : 0 < ((l :: rest).filter (fun i => i.requires.isEmpty)).length :=
        List.length_pos_of_mem hafilter
      have hl3 : (l :: rest).length ≤ fuel + 1 := hlen
      rw [List.length_map]
      omega
    have hnd2 : ((deps ++ (l :: rest).filter (fun j => j.requires.isEmpty)).map
          (fun i => i.path) ++
        (((l :: rest).filter (fun i => decide ¬(i.requires.isEmpty = true))).map
          (eraseReqs ((l :: rest).filter (fun j => j.requires.isEmpty)))).map (fun i => i.path)).Nodup := by
      rw [hrfpaths, List.map_append, List.append_assoc]
      have hp : (deps.map (fun i => i.path) ++
          (((l :: rest).filter (fun j => j.requires.isEmpty)).map (fun i => i.path) ++
           ((l :: rest).filter (fun i => decide ¬(i.requires.isEmpty = true))).map
             (fun i => i.path))).Perm
          (deps.map (fun i => i.path) ++ (l :: rest).map (fun i => i.path)) :=
        List.Perm.append_left _ hpartition
      exact hp.nodup_iff.mpr hnd
    have hclosed2 : ∀ p ∈ (((l :: rest).filter
          (fun i => decide ¬(i.requires.isEmpty = true))).map
          (eraseReqs ((l :: rest).filter (fun j => j.requires.isEmpty)))).map (fun i => i.path),
        ∀ r ∈ E p,
        r ∈ (deps ++ (l :: rest).filter (fun j => j.requires.isEmpty)).map
          (fun j => j.path) ∨
        r ∈ (((l :: rest).filter (fun i => decide ¬(i.requires.isEmpty = true))).map
          (eraseReqs ((l :: rest).filter (fun j => j.requires.isEmpty)))).map (fun j => j.path) := by
      intro p hp r hr
      rw [hrfpaths] at hp ⊢
      have hpd : p ∈ (l :: rest).map (fun j => j.path) := by
        obtain ⟨i, hi, rfl⟩ := List.mem_map.mp hp
        exact List.mem_map_of_mem _ (List.mem_of_mem_filter hi)
      rcases hclosed p hpd r hr with h | h
      · left
        rw [List.map_append]
        exact List.mem_append.mpr (Or.inl h)
      · have hmem := (hpartition.mem_iff (a := r)).mpr h
        rcases List.mem_append.mp hmem with h2 | h2
        · left
          rw [List.map_append]
          exact List.mem_append.mpr (Or.inr h2)
        · right
          exact h2
    have hrank2 : ∀ p ∈ (((l :: rest).filter
          (fun i => decide ¬(i.requires.isEmpty = true))).map
          (eraseReqs ((l :: rest).filter (fun j => j.requires.isEmpty)))).map (fun i => i.path),
        ∀ r ∈ E p,
        r ∈ (((l :: rest).filter (fun i => decide ¬(i.requires.isEmpty = true))).map
          (eraseReqs ((l :: rest).filter (fun j => j.requires.isEmpty)))).map (fun j => j.path) →
        rank r < rank p := by
      intro p hp r hr hrm
      rw [hrfpaths] at hp hrm
      have hpd : p ∈ (l :: rest).map (fun j => j.path) := by
        obtain ⟨i, hi, rfl⟩ := List.mem_map.mp hp
        exact List.mem_map_of_mem _ (List.mem_of_mem_filter hi)
      have hrdm : r ∈ (l :: rest).map (fun j => j.path) := by
        obtain ⟨i, hi, rfl⟩ := List.mem_map.mp hrm
        exact List.mem_map_of_mem _ (List.mem_of_mem_filter hi)
      exact hrank p hpd r hr hrdm
    obtain ⟨suffix', hmdl', hperm', hprop'⟩ :=
      mdl_main E rank hE fuel
        (((l :: rest).filter (fun i => decide ¬(i.requires.isEmpty = true))).map
          (eraseReqs ((l :: rest).filter (fun j => j.requires.isEmpty))))
        (deps ++ (l :: rest).filter (fun j => j.requires.isEmpty))
        hlen2 hnd2 hreq2 hclosed2 hrank2
    refine ⟨(l :: rest).filter (fun j => j.requires.isEmpty) ++ suffix', ?_, ?_, ?_⟩
    · rw [mdlAux, hpeel]
      dsimp only
      rw [hrest2, hmdl', List.append_assoc]
    · rw [List.map_append]
      have h1 : (suffix'.map (fun i => i.path)).Perm
          (((l :: rest).filter (fun i => decide ¬(i.requires.isEmpty = true))).map
            (fun i => i.path)) := by
        rw [hrfpaths] at hperm'
        exact hperm'
      exact (List.Perm.append_left _ h1).trans hpartition
    · intro a ha r hrE hrd
      by_cases hae : a.requires.isEmpty
      · have h0 := hreq a ha
        rw [List.isEmpty_iff.mp hae] at h0
        have h1 := List.filter_eq_nil_iff.mp h0.symm r hrE
        simp only [decide_eq_true_eq, not_not] at h1
        exact absurd h1 hrd
      · have haf : a ∈ (l :: rest).filter (fun i => decide ¬(i.requires.isEmpty = true)) :=
          List.mem_filter.mpr ⟨ha, by simp [hae]⟩
        have hapath_nin : a.path ∉ (deps ++ (l :: rest).filter
            (fun j => j.requires.isEmpty)).map (fun j => j.path) := by
          intro hin
          have hdisj := (List.nodup_append.mp hnd2).2.2
          apply hdisj hin
          rw [hrfpaths]
          exact List.mem_map_of_mem _ haf
        rw [show deps ++ ((l :: rest).filter (fun j => j.requires.isEmpty) ++ suffix') =
            (deps ++ (l :: rest).filter (fun j => j.requires.isEmpty)) ++ suffix' from
          (List.append_assoc ..).symm, List.map_append]
        by_cases hrnd : r ∈ ((l :: rest).filter (fun j => j.requires.isEmpty)).map
            (fun j => j.path)
        · have hrin : r ∈ (deps ++ (l :: rest).filter (fun j => j.requires.isEmpty)).map
              (fun j => j.path) := by
            rw [List.map_append]
            exact List.mem_append.mpr (Or.inr hrnd)
          have hlt := findIdx_append_lt r
            ((deps ++ (l :: rest).filter (fun j => j.requires.isEmpty)).map (fun j => j.path))
            (suffix'.map (fun i => i.path)) hrin
          have hge := findIdx_append_ge a.path
            ((deps ++ (l :: rest).filter (fun j => j.requires.isEmpty)).map (fun j => j.path))
            (suffix'.map (fun i => i.path)) hapath_nin
          omega
        · have hrd' : r ∉ (deps ++ (l :: rest).filter (fun j => j.requires.isEmpty)).map
              (fun j => j.path) := by
            rw [List.map_append]
            intro hin
            rcases List.mem_append.mp hin with h | h
            · exact hrd h
            · exact hrnd h
          have ha' : eraseReqs ((l :: rest).filter (fun j => j.requires.isEmpty)) a ∈
              ((l :: rest).filter (fun i => decide ¬(i.requires.isEmpty = true))).map
                (eraseReqs ((l :: rest).filter (fun j => j.requires.isEmpty))) :=
            List.mem_map_of_mem _ haf
          have hres := hprop' _ ha' r hrE hrd'
          rw [List.map_append] at hres
          exact hres

theorem find_of_nodup_paths :
    ∀ (dict : List ImportInfo), (dict.map (fun i => i.path)).Nodup →
      ∀ i ∈ dict, dict.find? (fun j => j.path == i.path) = some i
  | x :: xs, hnd, i, hi => by
    rw [List.map_cons] at hnd
    by_cases hx : x.path = i.path
    · rcases List.mem_cons.mp hi with rfl | hi'
      · exact List.find?_cons_of_pos _ (by simp)
      · exfalso
        have hmem : i.path ∈ xs.map (fun j => j.path) := List.mem_map_of_mem _ hi'
        rw [← hx] at hmem
        exact (List.nodup_cons.mp hnd).1 hmem
    · rcases List.mem_cons.mp hi with rfl | hi'
      · exact absurd rfl hx
      · rw [List.find?_cons_of_neg _ (by simp [hx])]
        exact find_of_nodup_paths xs (List.nodup_cons.mp hnd).2 i hi'

/--
**C1.** For every acyclic import graph — a registry with pairwise-distinct
canonical paths, duplicate-free requirement lists, all requirements
resolving to registry nodes, and a rank function strictly decreasing
along import edges (the standard characterization of acyclicity on a finite
graph) — the leveling pass succeeds and its emission order is a valid
topological order: for every import edge (A imports B), B's emission
position strictly precedes A's.
-/
theorem C1_topological (dict : List ImportInfo) (rank : String → Nat)
    (hnd : (dict.map (fun i => i.path)).Nodup)
    (hrnd : ∀ i ∈ dict, i.requires.Nodup)
    (hclosed : ∀ i ∈ dict, ∀ r ∈ i.requires, r ∈ dict.map (fun j => j.path))
    (hrank : ∀ i ∈ dict, ∀ r ∈ i.requires, rank r < rank i.path) :
    ∃ deps dict', makeDependencyList dict = .ok (deps, dict') ∧
      ∀ a ∈ dict, ∀ b ∈ dict, b.path ∈ a.requires →
        pathIdx deps b.path < pathIdx deps a.path := by
  have hfind := find_of_nodup_paths dict hnd
  have hEi : ∀ i ∈ dict,
      (((dict.find? (fun j => j.path == i.path)).map (fun j => j.requires)).getD []) =
        i.requires := by
    intro i hi
    rw [hfind i hi]
    rfl
  have hEnd : ∀ p,
      ((((dict.find? (fun j => j.path == p)).map (fun j => j.requires)).getD [])).Nodup := by
    intro p
    cases hf : dict.find? (fun j => j.path == p) with
    | none => exact List.nodup_nil
    | some j => exact hrnd j (List.mem_of_find?_eq_some hf)
  obtain ⟨suffix, hmdl, -, hprop⟩ :=
    mdl_main (fun p => ((dict.find? (fun j => j.path == p)).map (fun j => j.requires)).getD [])
      rank hEnd dict.length dict [] (Nat.le_refl _)
      (by simpa using hnd)
      (by
        intro i hi
        dsimp only
        rw [hEi i hi]
        simp)
      (by
        intro p hp r hr
        obtain ⟨i, hi, rfl⟩ := List.mem_map.mp hp
        dsimp only at hr
        rw [hEi i hi] at hr
        exact Or.inr (hclosed i hi r hr))
      (by
        intro p hp r hr _
        obtain ⟨i, hi, rfl⟩ := List.mem_map.mp hp
        dsimp only at hr
        rw [hEi i hi] at hr
        exact hrank i hi r hr)
  rw [List.nil_append] at hmdl
  refine ⟨suffix.enum.map (fun p => { p.2 with level := suffix.length - p.1 }),
    sortLevelAsc (suffix.enum.map (fun p => { p.2 with level := suffix.length - p.1 })),
    ?_, ?_⟩
  · unfold makeDependencyList
    rw [hmdl]
  · intro a ha b hb hedge
    have hpm : (suffix.enum.map
        (fun p => { p.2 with level := suffix.length - p.1 })).map (fun i => i.path) =
        suffix.map (fun i => i.path) := by
      rw [List.map_map]
      have he : ((fun i => i.path) ∘ fun p : Nat × ImportInfo =>
          ({ p.2 with level := suffix.length - p.1 } : ImportInfo)) =
          ((fun i => i.path) ∘ Prod.snd) := rfl
      rw [he, ← List.map_map, List.enum_map_snd]
    unfold pathIdx
    rw [hpm]
    have hres := hprop a ha b.path (by rw [hEi a ha]; exact hedge) (by simp)
    rw [List.nil_append] at hres
    exact hres

/-- Witness for C1 at the three-node chain `/c1 ← /c2 ← /c3` with an
explicit rank function. -/
theorem C1_topological_witness :
    ((([chainA, chainB, chainC] : List ImportInfo).map (fun i => i.path)).Nodup ∧
      (∀ i ∈ ([chainA, chainB, chainC] : List ImportInfo), i.requires.Nodup) ∧
      (∀ i ∈ ([chainA, chainB, chainC] : List ImportInfo), ∀ r ∈ i.requires,
        r ∈ ([chainA, chainB, chainC] : List ImportInfo).map (fun j => j.path)) ∧
      (∀ i ∈ ([chainA, chainB, chainC] : List ImportInfo), ∀ r ∈ i.requires,
        chainRank r < chainRank i.path)) ∧
    (∃ deps dict', makeDependencyList [chainA, chainB, chainC] = .ok (deps, dict') ∧
      ∀ a ∈ ([chainA, chainB, chainC] : List ImportInfo),
        ∀ b ∈ ([chainA, chainB, chainC] : List ImportInfo), b.path ∈ a.requires →
          pathIdx deps b.path < pathIdx deps a.path) :=
  ⟨⟨by decide, by decide, by decide, by decide⟩,
    C1_topological [chainA, chainB, chainC] chainRank
      (by decide) (by decide) (by decide) (by decide)⟩

/-- Witness for C7 at `dedupFS`: the two specifiers `./lib.sol` and
`lib.sol` canonicalize to the same real path and produce a single registry
node, one flat block, and one compiler-input key slot. -/
theorem C7_dedup_witness :
    resolveFileImports dedupFS flatCfg 5 "/d/r.sol" [] 0 = .ok (dedupD, [dedupNode]) ∧
    makeDependencyList [dedupNode] =
      .ok ([{ dedupNode with level := 1 }], [{ dedupNode with level := 1 }]) ∧
    (([dedupNode] : List ImportInfo).map (fun i => i.path)).Nodup ∧
    ∀ p ∈ ([dedupNode] : List ImportInfo).map (fun i => i.path),
      ([dedupNode] : List ImportInfo).countP (fun i => i.path == p) = 1 ∧
      (makeFlatFile dedupD [{ dedupNode with level := 1 }]).2.countP
        (fun i => i.path == p) = 1 :=
  ⟨by decide, by decide,
    (C7_dedup dedupFS flatCfg 5 "/d/r.sol" dedupD [dedupNode]
      [{ dedupNode with level := 1 }] [{ dedupNode with level := 1 }]
      (by decide) (by decide)).2.1,
    (C7_dedup dedupFS flatCfg 5 "/d/r.sol" dedupD [dedupNode]
      [{ dedupNode with level := 1 }] [{ dedupNode with level := 1 }]
      (by decide) (by decide)).2.2⟩

/-- Witness for C9's amended theorem: the path `/A` is already registered,
so importing it again queues nothing new, keeps the registry's single path,
and raises the stored level to the new depth 5. -/
theorem C9_amended_witness :
    ("/A" ∈ [cycA].map (fun i => i.path)) ∧
    ((checkImportLevels [cycA] ["/A"] 5).2.map (fun i => i.path) =
        [cycA].map (fun i => i.path) ∧
      "/A" ∉ (checkImportLevels [cycA] ["/A"] 5).1 ∧
      ("/A" ∈ ["/A"] → ∃ j' ∈ (checkImportLevels [cycA] ["/A"] 5).2,
        j'.path = "/A" ∧ 5 ≤ j'.level)) :=
  ⟨by decide,
    (C9_amended [cycA] ["/A"] 5 "/A" (by decide)).1,
    (C9_amended [cycA] ["/A"] 5 "/A" (by decide)).2.1,
    (C9_amended [cycA] ["/A"] 5 "/A" (by decide)).2.2.2⟩

theorem orderedInsert_of_forall_not (r : α → α → Prop) [DecidableRel r] (a : α) :
    ∀ l : List α, (∀ c ∈ l, ¬ r a c) → l.orderedInsert r a = l ++ [a]
  | [], _ => rfl
  | c :: t, h => by
    rw [List.orderedInsert, if_neg (h c (by simp)),
      orderedInsert_of_forall_not r a t (fun c' hc' => h c' (by simp [hc']))]
    rfl

theorem sortLevelAsc_of_pairwise_gt :
    ∀ l : List ImportInfo, List.Pairwise (fun a b => b.level < a.level) l →
      sortLevelAsc l = l.reverse
  | [], _ => rfl
  | a :: t, h => by
    have ht := sortLevelAsc_of_pairwise_gt t (List.pairwise_cons.mp h).2
    have hall : ∀ c ∈ t.reverse, ¬ a.level ≤ c.level := by
      intro c hc
      have := (List.pairwise_cons.mp h).1 c (List.mem_reverse.mp hc)
      omega
    unfold sortLevelAsc at ht ⊢
    rw [List.insertionSort, ht, orderedInsert_of_forall_not _ a t.reverse hall]
    simp

/--
**C6.** After a successful ordering of `N` registry nodes, the emission
list's node at position `n` carries `level = N - n` (levels are exactly
`N` down to `1`, strictly decreasing along the emission order, higher for
more-foundational nodes), and the registry the source leaves behind — from
which `flattenFile` writes the manifest — is exactly the emission list
reversed, so the manifest's `(path, level)` pairs are sorted strictly
ascending by level.
-/
theorem C6_levels (dict deps dict' : List ImportInfo)
    (h : makeDependencyList dict = .ok (deps, dict')) :
    deps.map (fun i => i.level) = (List.range deps.length).map (fun n => deps.length - n) ∧
    List.Pairwise (fun a b : ImportInfo => b.level < a.level) deps ∧
    dict' = deps.reverse ∧
    List.Pairwise (fun a b : String × Nat => a.2 < b.2)
      (dict'.map (fun i => (i.path, i.level))) := by
  unfold makeDependencyList at h
  cases hm : mdlAux dict.length dict [] with
  | error e => rw [hm] at h; exact absurd h (by simp)
  | ok deps0 =>
    rw [hm] at h
    obtain ⟨hdeps, hdict'⟩ : deps = deps0.enum.map
        (fun p => { p.2 with level := deps0.length - p.1 }) ∧ dict' = sortLevelAsc deps := by
      have := (Except.ok.injEq .. ▸ h :
        (deps0.enum.map (fun p => { p.2 with level := deps0.length - p.1 }),
          sortLevelAsc (deps0.enum.map (fun p => { p.2 with level := deps0.length - p.1 }))) =
          (deps, dict'))
      obtain ⟨h1, h2⟩ := Prod.mk.injEq .. ▸ this
      exact ⟨h1.symm, by rw [← h2, h1]⟩
    have hlen : deps.length = deps0.length := by
      rw [hdeps, List.length_map, List.enum_length]
    have hmap : deps.map (fun i => i.level) =
        (List.range deps.length).map (fun n => deps.length - n) := by
      conv_rhs => rw [hlen]
      conv_lhs => rw [hdeps]
      rw [List.map_map]
      have : ((fun i => i.level) ∘ fun p : Nat × ImportInfo =>
          ({ p.2 with level := deps0.length - p.1 } : ImportInfo)) =
          (fun n => deps0.length - n) ∘ Prod.fst := rfl
      rw [this, ← List.map_map, List.enum_map_fst]
    have hpw : List.Pairwise (fun a b : ImportInfo => b.level < a.level) deps := by
      rw [List.pairwise_iff_getElem]
      intro i j hi hj hij
      have hj0 : j < deps0.length := by rw [← hlen]; exact hj
      have hi0 : i < deps0.length := by rw [← hlen]; exact hi
      have hgi : deps[i].level = deps0.length - i := by
        simp only [hdeps, List.getElem_map, List.getElem_enum]
      have hgj : deps[j].level = deps0.length - j := by
        simp only [hdeps, List.getElem_map, List.getElem_enum]
      rw [hgi, hgj]
      omega
    have hrev : dict' = deps.reverse := by
      rw [hdict', sortLevelAsc_of_pairwise_gt deps hpw]
    refine ⟨hmap, hpw, hrev, ?_⟩
    rw [List.pairwise_map, hrev, List.pairwise_reverse]
    exact hpw

theorem scan_classify (cfg : ResolveConfig) (fs : FileStore) (dir : String) :
    ∀ (fuel : Nat) (ls imps cont mta : List String),
      scanLoop cfg fs dir fuel ls = .ok (imps, cont, mta) →
      mta = (nonImportLines fuel ls).filter (fun l => decide (isMetaLine l)) ∧
      cont = (nonImportLines fuel ls).filter (fun l => decide (¬ isMetaLine l)) := by
  intro fuel
  induction fuel with
  | zero =>
    intro ls imps cont mta h
    cases ls with
    | nil =>
      obtain ⟨rfl, rfl, rfl⟩ :
          ([] : List String) = imps ∧ ([] : List String) = cont ∧ ([] : List String) = mta := by
        simpa [scanLoop] using h
      exact ⟨rfl, rfl⟩
    | cons l rest => exact absurd h (by simp [scanLoop])
  | succ f ih =>
    intro ls imps cont mta h
    cases ls with
    | nil =>
      obtain ⟨rfl, rfl, rfl⟩ :
          ([] : List String) = imps ∧ ([] : List String) = cont ∧ ([] : List String) = mta := by
        simpa [scanLoop] using h
      exact ⟨rfl, rfl⟩
    | cons l rest =>
      rw [scanLoop] at h
      show mta = (nonImportLines (f + 1) (l :: rest)).filter _ ∧
        cont = (nonImportLines (f + 1) (l :: rest)).filter _
      rw [nonImportLines]
      by_cases himp : isImportLine l
      · rw [if_pos himp] at h ⊢
        cases hg : gatherStmt (rest.length + 1) l rest with
        | none => rw [hg] at h; exact absurd h (by simp)
        | some pr =>
          obtain ⟨stmt, rest'⟩ := pr
          rw [hg] at h
          dsimp only at h ⊢
          cases hr : resolveImportPath cfg fs dir (extractImportTarget stmt) with
          | error e => rw [hr] at h; exact absurd h (by simp)
          | ok rPath =>
            rw [hr] at h
            dsimp only at h
            cases hs : scanLoop cfg fs dir f rest' with
            | error e => rw [hs] at h; exact absurd h (by simp)
            | ok tri =>
              obtain ⟨i, c, m⟩ := tri
              rw [hs] at h
              dsimp only at h
              obtain ⟨-, rfl, rfl⟩ :
                  rPath :: i = imps ∧ c = cont ∧ m = mta := by simpa using h
              exact ih rest' i c m hs
      · rw [if_neg himp] at h ⊢
        cases hs : scanLoop cfg fs dir f rest with
        | error e => rw [hs] at h; exact absurd h (by simp)
        | ok tri =>
          obtain ⟨i, c, m⟩ := tri
          rw [hs] at h
          dsimp only at h
          obtain ⟨hm, hc⟩ := ih rest i c m hs
          by_cases h1 : jsIncludes l "SPDX-License"
          · rw [if_pos h1] at h
            obtain ⟨-, rfl, rfl⟩ : i = imps ∧ c = cont ∧ l :: m = mta := by simpa using h
            have hml : isMetaLine l := Or.inl h1
            rw [List.filter_cons, List.filter_cons]
            simp [hml, hm, hc]
          · rw [if_neg h1] at h
            by_cases h2 : jsIncludes l "pragma solidity"
            · rw [if_pos h2] at h
              obtain ⟨-, rfl, rfl⟩ : i = imps ∧ c = cont ∧ l :: m = mta := by simpa using h
              have hml : isMetaLine l := Or.inr h2
              rw [List.filter_cons, List.filter_cons]
              simp [hml, hm, hc]
            · rw [if_neg h2] at h
              obtain ⟨-, rfl, rfl⟩ : i = imps ∧ l :: c = cont ∧ m = mta := by simpa using h
              have hml : ¬ isMetaLine l := by
                intro hor
                rcases hor with hh | hh
                exacts [h1 hh, h2 hh]
              rw [List.filter_cons, List.filter_cons]
              simp [hml, hm, hc]

/--
**C8.** For every scanned file (whose scan succeeds), every line carrying
the license marker or the version-pragma marker — wherever it occurs among
the lines not consumed as import statements — ends up in the header
(`meta`), in the lines' original relative order, and is excluded from the
body, which consists (order-preserved, blank-trimmed) of exactly the
remaining marker-free lines.
-/
theorem C8_header (cfg : ResolveConfig) (fs : FileStore) (file raw : String) (fi : FileImport)
    (hraw : fs.read file = .ok raw)
    (h : getFileImports cfg fs file = .ok fi) :
    fi.meta = String.intercalate lb
      ((nonImportLines (splitLines raw).length (splitLines raw)).filter
        (fun l => decide (isMetaLine l))) ∧
    fi.content = String.intercalate lb (trimBlanks
      ((nonImportLines (splitLines raw).length (splitLines raw)).filter
        (fun l => decide (¬ isMetaLine l)))) := by
  unfold getFileImports at h
  rw [hraw] at h
  dsimp only at h
  cases hs : scanLoop cfg fs (dirOf file) (splitLines raw).length (splitLines raw) with
  | error e => rw [hs] at h; exact absurd h (by simp)
  | ok tri =>
    obtain ⟨i, c, m⟩ := tri
    rw [hs] at h
    obtain ⟨hm, hc⟩ := scan_classify cfg fs (dirOf file) (splitLines raw).length
      (splitLines raw) i c m hs
    dsimp only at h
    have hfi : fi =
        { content := String.intercalate lb (trimBlanks c),
          meta := String.intercalate lb m, imports := uniqueKeep i,
          inherits := findInheritance raw } :=
      (Except.ok.inj h).symm
    rw [hfi, hm, hc]
    exact ⟨rfl, rfl⟩

/-- Witness for C8 at a file whose license line sits *after* the first
content line and whose pragma line comes last: both land in the header in
order, and the body keeps only the two plain lines. -/
theorem C8_header_witness :
    hdrFS.read "/h.sol" = .ok
      "contract C \x7b\x7d\n// SPDX-License-Identifier: MIT\nmore\npragma solidity ^0.8.0;" ∧
    getFileImports flatCfg hdrFS "/h.sol" = .ok
      { content := "contract C \x7b\x7d" ++ lb ++ "more",
        meta := "// SPDX-License-Identifier: MIT" ++ lb ++ "pragma solidity ^0.8.0;",
        imports := [], inherits := [] } ∧
    ("// SPDX-License-Identifier: MIT" ++ lb ++ "pragma solidity ^0.8.0;") =
      String.intercalate lb
        ((nonImportLines
          (splitLines "contract C \x7b\x7d\n// SPDX-License-Identifier: MIT\nmore\npragma solidity ^0.8.0;").length
          (splitLines "contract C \x7b\x7d\n// SPDX-License-Identifier: MIT\nmore\npragma solidity ^0.8.0;")).filter
            (fun l => decide (isMetaLine l))) :=
  ⟨by decide, by decide,
    (C8_header flatCfg hdrFS "/h.sol"
      "contract C \x7b\x7d\n// SPDX-License-Identifier: MIT\nmore\npragma solidity ^0.8.0;"
      { content := "contract C \x7b\x7d" ++ lb ++ "more",
        meta := "// SPDX-License-Identifier: MIT" ++ lb ++ "pragma solidity ^0.8.0;",
        imports := [], inherits := [] } (by decide) (by decide)).1⟩

theorem contains_char_append (c : Char) :
    ∀ u v : List Char, (u ++ v).contains c = (u.contains c || v.contains c)
  | [], v => by simp
  | d :: u, v => by
    rw [List.cons_append, List.contains_cons, List.contains_cons,
      contains_char_append c u v, Bool.or_assoc]

theorem string_contains_append (a b : String) (c : Char) :
    (a ++ b).toList.contains c = (a.toList.contains c || b.toList.contains c) := by
  have h : (a ++ b).toList = a.toList ++ b.toList := String.data_append a b
  rw [h, contains_char_append]

/--
**C10.** The import-line-gathering loop of `getFileImports`
(`while (!importLine.includes(';')) { n += 1; importLine += lines[n]; }`)
(a) never terminates when neither the accumulated statement nor any
remaining line of the file contains a semicolon — for *every* fuel bound
the loop is still running (reads past the end of the line array keep
appending the string "undefined", which contains no semicolon) — and
(b) terminates within `ls.length` steps whenever the accumulated statement
or some remaining line does contain a semicolon. Hence the per-file scan
terminates exactly under the precondition that every import statement
eventually reaches a semicolon.
-/
theorem C10_import_gathering :
    (∀ (fuel : Nat) (acc : String) (ls : List String),
      acc.toList.contains cSemi = false →
      (∀ l ∈ ls, l.toList.contains cSemi = false) →
      gatherStmt fuel acc ls = none) ∧
    (∀ (ls : List String) (acc : String),
      (acc.toList.contains cSemi = true ∨ ∃ l ∈ ls, l.toList.contains cSemi = true) →
      ∃ stmt rest, gatherStmt ls.length acc ls = some (stmt, rest)) := by
  constructor
  · intro fuel
    induction fuel with
    | zero =>
      intro acc ls hacc _
      unfold gatherStmt
      rw [hacc]
      rfl
    | succ f ih =>
      intro acc ls hacc hls
      unfold gatherStmt
      rw [hacc]
      cases ls with
      | nil =>
        show gatherStmt f (acc ++ "undefined") [] = none
        exact ih _ _ (by rw [string_contains_append, hacc, Bool.false_or]; decide)
          (by intro l hl; cases hl)
      | cons x xs =>
        show gatherStmt f (acc ++ x) xs = none
        exact ih _ _
          (by rw [string_contains_append, hacc, Bool.false_or]; exact hls x (by simp))
          (fun l hl => hls l (by simp [hl]))
  · intro ls
    induction ls with
    | nil =>
      intro acc h
      rcases h with h | ⟨l, hl, _⟩
      · exact ⟨acc, [], by unfold gatherStmt; rw [h]; rfl⟩
      · cases hl
    | cons x xs ih =>
      intro acc h
      cases hacc : acc.toList.contains cSemi with
      | true =>
        exact ⟨acc, x :: xs, by unfold gatherStmt; rw [hacc]; rfl⟩
      | false =>
        have h' : (acc ++ x).toList.contains cSemi = true ∨
            ∃ l ∈ xs, l.toList.contains cSemi = true := by
          rcases h with h | ⟨l, hl, hcl⟩
          · rw [hacc] at h; cases h
          · rcases List.mem_cons.mp hl with rfl | hl'
            · left; rw [string_contains_append, hcl, Bool.or_true]
            · right; exact ⟨l, hl', hcl⟩
        obtain ⟨s, r, hg⟩ := ih (acc ++ x) h'
        refine ⟨s, r, ?_⟩
        show gatherStmt (xs.length + 1) acc (x :: xs) = some (s, r)
        unfold gatherStmt
        rw [hacc]
        exact hg

/-- Witness for C10: a dangling `import (` with semicolon-free remaining
lines never finishes gathering (here at fuel 1000), while a remaining line
`a;` lets the loop finish within the line budget. -/
theorem C10_import_gathering_witness :
    (("import (" : String).toList.contains cSemi = false ∧
      (∀ l ∈ ["foo", "bar"], l.toList.contains cSemi = false) ∧
      gatherStmt 1000 "import (" ["foo", "bar"] = none) ∧
    ((("x" : String) :: ["a;"]).length = 2 ∧
      (∃ l ∈ ["x", "a;"], l.toList.contains cSemi = true) ∧
      ∃ stmt rest, gatherStmt (["x", "a;"] : List String).length "import (" ["x", "a;"] =
        some (stmt, rest)) :=
  ⟨⟨by decide, by decide,
      C10_import_gathering.1 1000 "import (" ["foo", "bar"] (by decide) (by decide)⟩,
   ⟨by decide, ⟨"a;", by decide, by decide⟩,
      C10_import_gathering.2 ["x", "a;"] "import ("
        (Or.inr ⟨"a;", by decide, by decide⟩)⟩⟩

/-- Witness for C6 at the concrete two-node registry `[wA, wB]`:
emission `[W1, W2]` with levels `[2, 1]`, registry left as the reverse. -/
theorem C6_levels_witness :
    makeDependencyList [wA, wB] = .ok (wDeps, wDeps.reverse) ∧
    (wDeps.map (fun i => i.level) =
      (List.range wDeps.length).map (fun n => wDeps.length - n) ∧
    List.Pairwise (fun a b : String × Nat => a.2 < b.2)
      (wDeps.reverse.map (fun i => (i.path, i.level)))) :=
  ⟨by decide,
    (C6_levels [wA, wB] wDeps wDeps.reverse (by decide)).1,
    (C6_levels [wA, wB] wDeps wDeps.reverse (by decide)).2.2.2⟩

end SolidityFlatten
